import Mathlib

/-!
# A shallow embedding of `expnode-sol.H`

The C++ header defines an expression tree (`struct Exp` and its seventeen
subclasses), an environment (`struct Enviroment`), a tree-walking evaluator
(`Exp::eval`) and a recursive-descent parser (`parse`).

Conventions of the embedding.

* A `std::string` is a `List Char`.
* An `int` is a `CInt`: an integer of the 32-bit two's-complement range.  Signed
  overflow, division by zero and `INT_MIN / -1` are undefined behaviour in C++
  and are reported as `Outcome.undefined`.
* A pointer to an owned subtree is the subtree; `clone()` is the identity and
  `delete` is dropped.
* `eval` takes its environment by reference: the model returns the environment
  as the caller sees it afterwards, next to the outcome (also when an
  exception is thrown).
* Recursion is bounded by a fuel argument; running out of fuel is reported as a
  separate outcome, so that divergence of the C++ code stays visible.
* Cursor positions are natural numbers: the text is taken to be shorter than
  `2^31` characters, so that the `int` cursor holds every position.  A `size_t`
  that may be `std::string::npos` is an `Option Nat` (`none` is `npos`), and the
  wrap-around of `npos + 1` to `0` is modelled as the code computes it.
-/

/-- The C++ type `int`: 32 bits, two's complement. -/
structure CInt where
  val : Int
  inRange : -2147483648 ≤ val ∧ val ≤ 2147483647
deriving DecidableEq

/-- The `int` holding `z`, when `z` is representable. -/
def CInt.ofInt? (z : Int) : Option CInt :=
  if h : -2147483648 ≤ z ∧ z ≤ 2147483647 then some ⟨z, h⟩ else none

/-- The `int` constant `0`. -/
def CInt.zero : CInt := ⟨0, by decide⟩

/-- The `int` constant `1`. -/
def CInt.one : CInt := ⟨1, by decide⟩

mutual
/-- The class hierarchy under `struct Exp`, one constructor per subclass, with
the fields of the subclass. -/
inductive Exp
  | Void
  | Int (value : CInt)
  | IsVoid (e : Exp)
  | Pair (e1 e2 : Exp)
  | Fst (e : Exp)
  | Snd (e : Exp)
  | Neg (e : Exp)
  | Def (var_name : List Char) (e : Exp)
  | Var (var_name : List Char)
  | Add (e1 e2 : Exp)
  | Mul (e1 e2 : Exp)
  | DivMod (e1 e2 : Exp)
  | Let (var : List Char) (e body : Exp)
  | IfGreater (e1 e2 e3 e4 : Exp)
  | Closure (env : Enviroment) (fn : Exp)
  | Fun (name formal : List Char) (body : Exp)
  | Call (fname : List Char) (actual : Exp)
/-- The `struct Enviroment`: a singly linked list of `(name, value)` tuples,
first element first. -/
inductive Enviroment
  | nil
  | cons (name : List Char) (value : Exp) (rest : Enviroment)
end

deriving instance DecidableEq for Exp, Enviroment

/-- The `SLList::insert` of the list library: the new tuple becomes the first
element. -/
def Enviroment.insert (env : Enviroment) (name : List Char) (value : Exp) : Enviroment :=
  .cons name value env

/-- The `envlookup`: the value of the first tuple whose name is `var_name`
(`search_ptr` scans from the first element), `none` for `nullptr`. -/
def envlookup : Enviroment → List Char → Option Exp
  | .nil, _ => none
  | .cons name value rest, var_name =>
    if name = var_name then some value else envlookup rest var_name

/-- How a call of `eval` ends. -/
inductive Outcome
  /-- The call returned this tree. -/
  | value (v : Exp)
  /-- The call threw `std::domain_error(what)`. -/
  | domain_error (what : String)
  /-- The call ran into undefined behaviour. -/
  | undefined
  /-- The fuel of the model ran out. -/
  | out_of_fuel
deriving DecidableEq

/-- Sequencing of two steps of an `eval` body: when the first step returned a
tree, go on with it in the environment it left; otherwise the exception (or
undefined behaviour, or exhaustion) leaves the body at once. -/
def andThen (r : Outcome × Enviroment) (k : Exp → Enviroment → Outcome × Enviroment) :
    Outcome × Enviroment :=
  match r with
  | (.value v, env) => k v env
  | (.domain_error what, env) => (.domain_error what, env)
  | (.undefined, env) => (.undefined, env)
  | (.out_of_fuel, env) => (.out_of_fuel, env)

/-- An `int` result of machine arithmetic: undefined when it does not fit. -/
def intResult (z : Int) : Outcome :=
  match CInt.ofInt? z with
  | some v => .value (.Int v)
  | none => .undefined

/-- The result of `DivMod::eval` on two `int`s: `/` and `%` of C++ truncate
toward zero; a zero divisor and `INT_MIN / -1` are undefined. -/
def divmodResult (a b : CInt) : Outcome :=
  if b.val = 0 then .undefined
  else
    match CInt.ofInt? (Int.tdiv a.val b.val), CInt.ofInt? (Int.tmod a.val b.val) with
    | some q, some r => .value (.Pair (.Int q) (.Int r))
    | _, _ => .undefined

/-- The virtual method `Exp::eval(Enviroment &)`, by dispatch on the subclass.
The first component is the outcome, the second the environment of the caller
after the call. -/
def eval : Nat → Exp → Enviroment → Outcome × Enviroment
  | 0, _, env => (.out_of_fuel, env)
  | _ + 1, .Void, env => (.value .Void, env)
  | _ + 1, .Int value, env => (.value (.Int value), env)
  | n + 1, .IsVoid e, env =>
    andThen (eval n e env) fun ee env =>
      match ee with
      | .Void => (.value (.Int CInt.one), env)
      | _ => (.value (.Int CInt.zero), env)
  | n + 1, .Pair e1 e2, env =>
    andThen (eval n e1 env) fun ee1 env =>
    andThen (eval n e2 env) fun ee2 env =>
      (.value (.Pair ee1 ee2), env)
  | n + 1, .Fst e, env =>
    andThen (eval n e env) fun p env =>
      match p with
      | .Pair e1 _ => (.value e1, env)
      | _ => (.domain_error "fst applied to non-pair", env)
  | n + 1, .Snd e, env =>
    andThen (eval n e env) fun p env =>
      match p with
      | .Pair _ e2 => (.value e2, env)
      | _ => (.domain_error "snd applied to non-pair", env)
  | n + 1, .Neg e, env =>
    andThen (eval n e env) fun ee env =>
      match ee with
      | .Int value => (intResult (-value.val), env)
      | _ => (.domain_error "neg applied to non-int", env)
  | n + 1, .Def var_name e, env =>
    andThen (eval n e env) fun ee env =>
      (.value .Void, env.insert var_name ee)
  | _ + 1, .Var var_name, env =>
    match envlookup env var_name with
    | none => (.domain_error "var does not exist", env)
    | some e => (.value e, env)
  | n + 1, .Add e1 e2, env =>
    andThen (eval n e1 env) fun ee1 env =>
    andThen (eval n e2 env) fun ee2 env =>
      match ee1, ee2 with
      | .Int a, .Int b => (intResult (a.val + b.val), env)
      | _, _ => (.domain_error "add applied to non-int", env)
  | n + 1, .Mul e1 e2, env =>
    andThen (eval n e1 env) fun ee1 env =>
    andThen (eval n e2 env) fun ee2 env =>
      match ee1, ee2 with
      | .Int a, .Int b => (intResult (a.val * b.val), env)
      | _, _ => (.domain_error "mul applied to non-int", env)
  | n + 1, .DivMod e1 e2, env =>
    -- the source casts both results to `Int *` before it tests `get_type()`;
    -- the cast leaves the pointer as it is, so the test sees the real type
    andThen (eval n e1 env) fun ee1 env =>
    andThen (eval n e2 env) fun ee2 env =>
      match ee1, ee2 with
      | .Int a, .Int b => (divmodResult a b, env)
      | _, _ => (.domain_error "divmod applied to non-int", env)
  | n + 1, .Let var e body, env =>
    andThen (eval n e env) fun v env =>
      -- `new_env` is a copy of `env`; it dies with the call
      ((eval n body (env.insert var v)).1, env)
  | n + 1, .IfGreater e1 e2 e3 e4, env =>
    andThen (eval n e1 env) fun ee1 env =>
    andThen (eval n e2 env) fun ee2 env =>
      match ee1, ee2 with
      | .Int a, .Int b => if a.val > b.val then eval n e3 env else eval n e4 env
      | _, _ => (.domain_error "ifgreater applied to non-int", env)
  | _ + 1, .Closure cenv fn, env => (.value (.Closure cenv fn), env)
  | _ + 1, .Fun name formal body, env =>
    (.value .Void, env.insert name (.Closure env (.Fun name formal body)))
  | n + 1, .Call fname actual, env =>
    match envlookup env fname with
    | none => (.domain_error "function name does not exist", env)
    | some (.Closure cenv (.Fun name formal body)) =>
      andThen (eval n actual env) fun v env =>
        ((eval n body
            ((cenv.insert name (.Closure cenv (.Fun name formal body))).insert formal v)).1,
          env)
    -- `static_cast<Fun *>` of a node that is no `Fun`
    | some (.Closure _ _) => (.undefined, env)
    | some _ => (.domain_error "call applied to non-closure", env)

/-- The C function `isspace` in the default locale: space, and the control
characters from tab to carriage return. -/
def isspace (c : Char) : Bool :=
  c.toNat = 32 || (9 ≤ c.toNat && c.toNat ≤ 13)

/-- Modelled from the spec: the helper `remove_whites` is not in the header;
the spec calls it the whitespace-stripping helper that feeds the parser a
whitespace-free string (all whitespace is removed from the input). -/
def remove_whites (s : List Char) : List Char :=
  s.filter fun c => !isspace c

/-- Modelled from the spec: the helper `is_str_num` is not in the header; the
spec describes an integer literal as an optionally-signed run of digits,
validated before conversion. -/
def is_str_num (s : List Char) : Bool :=
  match s with
  | '-' :: ds => !ds.isEmpty && ds.all Char.isDigit
  | '+' :: ds => !ds.isEmpty && ds.all Char.isDigit
  | ds => !ds.isEmpty && ds.all Char.isDigit

/-- The value of a run of decimal digits. -/
def digitsValue (ds : List Char) : Nat :=
  ds.foldl (fun acc c => acc * 10 + (c.toNat - 48)) 0

/-- The library function `std::stoi` on a validated literal: the value of the
signed digits, `none` when it is outside the `int` range (`stoi` then throws
`std::out_of_range`). -/
def stoi (s : List Char) : Option CInt :=
  match s with
  | '-' :: ds => CInt.ofInt? (-(digitsValue ds : Int))
  | '+' :: ds => CInt.ofInt? (digitsValue ds)
  | ds => CInt.ofInt? (digitsValue ds)

/-- The index of the first `c` in a list, if any. -/
def firstIndex (c : Char) : List Char → Option Nat
  | [] => none
  | d :: ds => if d = c then some 0 else (firstIndex c ds).map (· + 1)

/-- The `std::string::find_first_of(c, pos)`: the first index `≥ pos` holding
`c`; `none` is `npos`, both as the starting position and as the result. -/
def find_first_of (p : List Char) (c : Char) (pos : Option Nat) : Option Nat :=
  match pos with
  | none => none
  | some i => (firstIndex c (p.drop i)).map (· + i)

/-- The `std::string::operator[]`: the character at an index below the size,
the terminating `'\0'` at the size itself; beyond that (and at `npos`) the
access is undefined, which is `none`. -/
def charAt (p : List Char) (i : Option Nat) : Option Char :=
  match i with
  | none => none
  | some i => if i ≤ p.length then some (p.getD i (Char.ofNat 0)) else none

/-- The `std::string::substr(pos, count)` for `pos ≤ size`: at most `count`
characters from `pos` on; a `count` of `none` is one that exceeds every size. -/
def substr (p : List Char) (pos : Nat) (count : Option Nat) : List Char :=
  match count with
  | some n => (p.drop pos).take n
  | none => p.drop pos

/-- The `size_t` sum `x + 1`: `npos + 1` wraps to `0`. -/
def plus_one (x : Option Nat) : Nat :=
  match x with
  | some k => k + 1
  | none => 0

/-- The `size_t` difference `a - b` used as a character count: when `a` is
`npos`, or smaller than `b` so that the difference wraps, the count exceeds
every size (`none`). -/
def size_sub (a : Option Nat) (b : Nat) : Option Nat :=
  match a with
  | some k => if b ≤ k then some (k - b) else none
  | none => none

/-- How a call of the cursor form `parse(p, pos)` ends. -/
inductive ParseResult
  /-- It returned this tree and left the cursor at `pos`. -/
  | tree (e : Exp) (pos : Nat)
  /-- It returned `nullptr`. -/
  | null
  /-- The call of `std::stoi` threw `std::out_of_range`. -/
  | out_of_range
  /-- It ran into undefined behaviour. -/
  | undefined
  /-- The fuel of the model ran out. -/
  | out_of_fuel
deriving DecidableEq

/-- Go on after a recursive call of `parse(p, pos)`: with the tree and the
cursor when it returned a tree, and out of the production otherwise. -/
def ParseResult.andThen (r : ParseResult) (k : Exp → Nat → ParseResult) : ParseResult :=
  match r with
  | .tree e pos => k e pos
  | .null => .null
  | .out_of_range => .out_of_range
  | .undefined => .undefined
  | .out_of_fuel => .out_of_fuel

/-- The test `if (p[i] != c) return nullptr;` followed by `k`. -/
def expect (p : List Char) (i : Option Nat) (c : Char) (k : ParseResult) : ParseResult :=
  match charAt p i with
  | none => .undefined
  | some d => if d ≠ c then .null else k

/-- The cursor form `parse(const string & p, int & pos)`.  The productions
follow the `else if` chain of the source in its order. -/
def parseAt : Nat → List Char → Nat → ParseResult
  | 0, _, _ => .out_of_fuel
  | fuel + 1, p, pos =>
    if pos ≥ p.length then .null
    else if p.getD pos (Char.ofNat 0) ≠ '<' then .null
    else if substr p (pos + 1) (some 4) = "void".toList then .tree .Void (pos + 6)
    else
      let end_name := find_first_of p ',' (some pos)
      let name := substr p (pos + 1) (size_sub end_name (pos + 1))
      let pos := plus_one end_name
      if name = "int".toList then
        let end_val := find_first_of p '>' end_name
        expect p end_val '>' <|
          let val := substr p (plus_one end_name) (size_sub end_val (plus_one end_name))
          if !is_str_num val then .null
          else
            match stoi val with
            | none => .out_of_range
            | some value => .tree (.Int value) (plus_one end_val)
      else if name = "pair".toList then
        (parseAt fuel p pos).andThen fun e1 pos =>
        expect p (some pos) ',' <|
        (parseAt fuel p (pos + 1)).andThen fun e2 pos =>
        expect p (some pos) '>' <|
        .tree (.Pair e1 e2) (pos + 1)
      else if name = "fst".toList then
        (parseAt fuel p pos).andThen fun e pos =>
        expect p (some pos) '>' <|
        .tree (.Fst e) (pos + 1)
      else if name = "snd".toList then
        (parseAt fuel p pos).andThen fun e pos =>
        expect p (some pos) '>' <|
        .tree (.Snd e) (pos + 1)
      else if name = "def".toList then
        let end_val := find_first_of p ',' (some (plus_one end_name))
        expect p end_val ',' <|
          let var_name := substr p (plus_one end_name) (size_sub end_val (plus_one end_name))
          (parseAt fuel p (plus_one end_val)).andThen fun e pos =>
          expect p (some pos) '>' <|
          .tree (.Def var_name e) (pos + 1)
      else if name = "var".toList then
        let end_val := find_first_of p '>' end_name
        expect p end_val '>' <|
          let var_name := substr p (plus_one end_name) (size_sub end_val (plus_one end_name))
          .tree (.Var var_name) (plus_one end_val)
      else if name = "isvoid".toList then
        (parseAt fuel p pos).andThen fun e pos =>
        expect p (some pos) '>' <|
        .tree (.IsVoid e) (pos + 1)
      else if name = "neg".toList then
        (parseAt fuel p pos).andThen fun e pos =>
        expect p (some pos) '>' <|
        .tree (.Neg e) (pos + 1)
      else if name = "add".toList then
        (parseAt fuel p pos).andThen fun e1 pos =>
        expect p (some pos) ',' <|
        (parseAt fuel p (pos + 1)).andThen fun e2 pos =>
        expect p (some pos) '>' <|
        .tree (.Add e1 e2) (pos + 1)
      else if name = "mul".toList then
        (parseAt fuel p pos).andThen fun e1 pos =>
        expect p (some pos) ',' <|
        (parseAt fuel p (pos + 1)).andThen fun e2 pos =>
        expect p (some pos) '>' <|
        .tree (.Mul e1 e2) (pos + 1)
      else if name = "divmod".toList then
        (parseAt fuel p pos).andThen fun e1 pos =>
        expect p (some pos) ',' <|
        (parseAt fuel p (pos + 1)).andThen fun e2 pos =>
        expect p (some pos) '>' <|
        .tree (.DivMod e1 e2) (pos + 1)
      else if name = "let".toList then
        let end_var := find_first_of p ',' (some (plus_one end_name))
        expect p end_var ',' <|
          let var := substr p (plus_one end_name) (size_sub end_var (plus_one end_name))
          (parseAt fuel p (plus_one end_var)).andThen fun e pos =>
          expect p (some pos) ',' <|
          (parseAt fuel p (pos + 1)).andThen fun body pos =>
          expect p (some pos) '>' <|
          .tree (.Let var e body) (pos + 1)
      else if name = "ifgreater".toList then
        (parseAt fuel p pos).andThen fun e1 pos =>
        expect p (some pos) ',' <|
        (parseAt fuel p (pos + 1)).andThen fun e2 pos =>
        expect p (some pos) ',' <|
        (parseAt fuel p (pos + 1)).andThen fun e3 pos =>
        expect p (some pos) ',' <|
        (parseAt fuel p (pos + 1)).andThen fun e4 pos =>
        expect p (some pos) '>' <|
        .tree (.IfGreater e1 e2 e3 e4) (pos + 1)
      else if name = "fun".toList then
        let end_fname := find_first_of p ',' (some (plus_one end_name))
        expect p end_fname ',' <|
          let name := substr p (plus_one end_name) (size_sub end_fname (plus_one end_name))
          let end_val := find_first_of p ',' (some (plus_one end_fname))
          expect p end_val ',' <|
            let formal :=
              substr p (plus_one end_fname) (size_sub end_val (plus_one end_fname))
            (parseAt fuel p (plus_one end_val)).andThen fun body pos =>
            expect p (some pos) '>' <|
            .tree (.Fun name formal body) (pos + 1)
      else if name = "call".toList then
        let end_val := find_first_of p ',' (some (plus_one end_name))
        expect p end_val ',' <|
          let fname := substr p (plus_one end_name) (size_sub end_val (plus_one end_name))
          (parseAt fuel p (plus_one end_val)).andThen fun actual pos =>
          expect p (some pos) '>' <|
          .tree (.Call fname actual) (pos + 1)
      else .null

/-- How a call of the entry point `parse(const string & prog)` ends. -/
inductive TopResult
  /-- It returned this tree. -/
  | tree (e : Exp)
  /-- It returned `nullptr`, without an exception. -/
  | nullptr
  /-- It threw `std::logic_error(what)`. -/
  | logic_error (what : String)
  /-- The call of `std::stoi` threw `std::out_of_range`. -/
  | out_of_range
  /-- It ran into undefined behaviour. -/
  | undefined
  /-- The fuel of the model ran out. -/
  | out_of_fuel
deriving DecidableEq

/-- The entry point `parse(const string & prog)`. -/
def parse (fuel : Nat) (prog : List Char) : TopResult :=
  if prog.isEmpty then .nullptr
  else
    match parseAt fuel (remove_whites prog) 0 with
    | .tree ret _ => .tree ret
    | .null => .logic_error "bad formed expression"
    | .out_of_range => .out_of_range
    | .undefined => .undefined
    | .out_of_fuel => .out_of_fuel

/-- A name the grammar can carry: no `,`, no `>` and no whitespace. -/
def nameOk (s : List Char) : Prop :=
  ',' ∉ s ∧ '>' ∉ s ∧ ∀ c ∈ s, isspace c = false

/-- A tree of the sixteen source variants (no `Closure` at any depth) all of
whose names are names of the grammar. -/
def sourceTree : Exp → Prop
  | .Void => True
  | .Int _ => True
  | .IsVoid e => sourceTree e
  | .Pair e1 e2 => sourceTree e1 ∧ sourceTree e2
  | .Fst e => sourceTree e
  | .Snd e => sourceTree e
  | .Neg e => sourceTree e
  | .Def var_name e => nameOk var_name ∧ sourceTree e
  | .Var var_name => nameOk var_name
  | .Add e1 e2 => sourceTree e1 ∧ sourceTree e2
  | .Mul e1 e2 => sourceTree e1 ∧ sourceTree e2
  | .DivMod e1 e2 => sourceTree e1 ∧ sourceTree e2
  | .Let var e body => nameOk var ∧ sourceTree e ∧ sourceTree body
  | .IfGreater e1 e2 e3 e4 => sourceTree e1 ∧ sourceTree e2 ∧ sourceTree e3 ∧ sourceTree e4
  | .Closure _ _ => False
  | .Fun name formal body => nameOk name ∧ nameOk formal ∧ sourceTree body
  | .Call fname actual => nameOk fname ∧ sourceTree actual

/-- The nesting depth of a tree: the number of nested calls of the cursor form
that recognise its text. -/
def depth : Exp → Nat
  | .Void => 1
  | .Int _ => 1
  | .IsVoid e => depth e + 1
  | .Pair e1 e2 => max (depth e1) (depth e2) + 1
  | .Fst e => depth e + 1
  | .Snd e => depth e + 1
  | .Neg e => depth e + 1
  | .Def _ e => depth e + 1
  | .Var _ => 1
  | .Add e1 e2 => max (depth e1) (depth e2) + 1
  | .Mul e1 e2 => max (depth e1) (depth e2) + 1
  | .DivMod e1 e2 => max (depth e1) (depth e2) + 1
  | .Let _ e body => max (depth e) (depth body) + 1
  | .IfGreater e1 e2 e3 e4 => max (max (depth e1) (depth e2)) (max (depth e3) (depth e4)) + 1
  | .Closure _ _ => 1
  | .Fun _ _ body => depth body + 1
  | .Call _ actual => depth actual + 1

mutual
/-- A value: `Void`, an `Int`, a `Pair` of two values, or a `Closure` whose
captured environment binds only values. -/
def isValue : Exp → Prop
  | .Void => True
  | .Int _ => True
  | .Pair e1 e2 => isValue e1 ∧ isValue e2
  | .Closure env _ => bindsValues env
  | _ => False
/-- Every binding of the environment is a value. -/
def bindsValues : Enviroment → Prop
  | .nil => True
  | .cons _ value rest => isValue value ∧ bindsValues rest
end

mutual
/-- Every `Closure` node of the tree, at any depth (also inside function bodies
and inside captured environments), captures an environment that binds only
values.  A tree without a `Closure` node, as every parsed program, is one. -/
def closuresOk : Exp → Prop
  | .Void => True
  | .Int _ => True
  | .IsVoid e => closuresOk e
  | .Pair e1 e2 => closuresOk e1 ∧ closuresOk e2
  | .Fst e => closuresOk e
  | .Snd e => closuresOk e
  | .Neg e => closuresOk e
  | .Def _ e => closuresOk e
  | .Var _ => True
  | .Add e1 e2 => closuresOk e1 ∧ closuresOk e2
  | .Mul e1 e2 => closuresOk e1 ∧ closuresOk e2
  | .DivMod e1 e2 => closuresOk e1 ∧ closuresOk e2
  | .Let _ e body => closuresOk e ∧ closuresOk body
  | .IfGreater e1 e2 e3 e4 => closuresOk e1 ∧ closuresOk e2 ∧ closuresOk e3 ∧ closuresOk e4
  | .Closure env fn => bindsValues env ∧ envClosuresOk env ∧ closuresOk fn
  | .Fun _ _ body => closuresOk body
  | .Call _ actual => closuresOk actual
/-- Every bound tree of the environment satisfies `closuresOk`. -/
def envClosuresOk : Enviroment → Prop
  | .nil => True
  | .cons _ value rest => closuresOk value ∧ envClosuresOk rest
end

/-- The tree has a `Def` or a `Fun` at a place that `eval` runs in the
environment of the caller: anywhere but in the body of a `Let` and inside a
`Closure`. -/
def bindsAmbient : Exp → Bool
  | .Void => false
  | .Int _ => false
  | .IsVoid e => bindsAmbient e
  | .Pair e1 e2 => bindsAmbient e1 || bindsAmbient e2
  | .Fst e => bindsAmbient e
  | .Snd e => bindsAmbient e
  | .Neg e => bindsAmbient e
  | .Def _ _ => true
  | .Var _ => false
  | .Add e1 e2 => bindsAmbient e1 || bindsAmbient e2
  | .Mul e1 e2 => bindsAmbient e1 || bindsAmbient e2
  | .DivMod e1 e2 => bindsAmbient e1 || bindsAmbient e2
  | .Let _ e _ => bindsAmbient e
  | .IfGreater e1 e2 e3 e4 =>
    bindsAmbient e1 || bindsAmbient e2 || bindsAmbient e3 || bindsAmbient e4
  | .Closure _ _ => false
  | .Fun _ _ _ => true
  | .Call _ actual => bindsAmbient actual

/-- The names bound in an environment, first binding first. -/
def Enviroment.names : Enviroment → List (List Char)
  | .nil => []
  | .cons name _ rest => name :: Enviroment.names rest

/-- The `int` literal `-1`. -/
def CInt.minusOne : CInt := ⟨-1, by decide⟩

/-- The recursive countdown `f(n) = ifgreater(n, 0, f(n - 1) + 1, 0)`, the tree
of `<fun,f,n,<ifgreater,<var,n>,<int,0>,<add,<call,f,<add,<var,n>,<int,-1>>>,<int,1>>,<int,0>>>`. -/
def countdown : Exp :=
  .Fun ['f'] ['n']
    (.IfGreater (.Var ['n']) (.Int CInt.zero)
      (.Add (.Call ['f'] (.Add (.Var ['n']) (.Int CInt.minusOne))) (.Int CInt.one))
      (.Int CInt.zero))

/-- The text of `countdown` in the grammar. -/
def countdownText : List Char :=
  "<fun,f,n,<ifgreater,<var,n>,<int,0>,<add,<call,f,<add,<var,n>,<int,-1>>>,<int,1>>,<int,0>>>".toList

/-- A tree that `eval` returns as it is: `Void`, an `Int`, a `Pair` of two such
trees, or a `Closure`, whatever it captures. -/
def valueTree : Exp → Prop
  | .Void => True
  | .Int _ => True
  | .Pair e1 e2 => valueTree e1 ∧ valueTree e2
  | .Closure _ _ => True
  | _ => False

/-- The names stored in a tree: the name of each `Var`, `Def`, `Let` and `Call`
and both names of each `Fun`, outside `Closure` nodes. -/
def storedNames : Exp → List (List Char)
  | .Void => []
  | .Int _ => []
  | .IsVoid e => storedNames e
  | .Pair e1 e2 => storedNames e1 ++ storedNames e2
  | .Fst e => storedNames e
  | .Snd e => storedNames e
  | .Neg e => storedNames e
  | .Def var_name e => var_name :: storedNames e
  | .Var var_name => [var_name]
  | .Add e1 e2 => storedNames e1 ++ storedNames e2
  | .Mul e1 e2 => storedNames e1 ++ storedNames e2
  | .DivMod e1 e2 => storedNames e1 ++ storedNames e2
  | .Let var e body => var :: (storedNames e ++ storedNames body)
  | .IfGreater e1 e2 e3 e4 =>
    storedNames e1 ++ storedNames e2 ++ storedNames e3 ++ storedNames e4
  | .Closure _ _ => []
  | .Fun name formal body => name :: formal :: storedNames body
  | .Call fname actual => fname :: storedNames actual

/-- The names of a tree are as the parser scans them: the name of a `Var` runs
up to a `>` and holds none, the names of a `Def`, `Let`, `Fun` and `Call` run
up to a `,` and hold none; and the tree has no `Closure` node. -/
def namesScanned : Exp → Prop
  | .Void => True
  | .Int _ => True
  | .IsVoid e => namesScanned e
  | .Pair e1 e2 => namesScanned e1 ∧ namesScanned e2
  | .Fst e => namesScanned e
  | .Snd e => namesScanned e
  | .Neg e => namesScanned e
  | .Def var_name e => ',' ∉ var_name ∧ namesScanned e
  | .Var var_name => '>' ∉ var_name
  | .Add e1 e2 => namesScanned e1 ∧ namesScanned e2
  | .Mul e1 e2 => namesScanned e1 ∧ namesScanned e2
  | .DivMod e1 e2 => namesScanned e1 ∧ namesScanned e2
  | .Let var e body => ',' ∉ var ∧ namesScanned e ∧ namesScanned body
  | .IfGreater e1 e2 e3 e4 =>
    namesScanned e1 ∧ namesScanned e2 ∧ namesScanned e3 ∧ namesScanned e4
  | .Closure _ _ => False
  | .Fun name formal body => ',' ∉ name ∧ ',' ∉ formal ∧ namesScanned body
  | .Call fname actual => ',' ∉ fname ∧ namesScanned actual

mutual
/-- The number of nodes of a tree, those of the trees bound in captured
environments included: its size. -/
def nodes : Exp → Nat
  | .Void => 1
  | .Int _ => 1
  | .IsVoid e => 1 + nodes e
  | .Pair e1 e2 => 1 + nodes e1 + nodes e2
  | .Fst e => 1 + nodes e
  | .Snd e => 1 + nodes e
  | .Neg e => 1 + nodes e
  | .Def _ e => 1 + nodes e
  | .Var _ => 1
  | .Add e1 e2 => 1 + nodes e1 + nodes e2
  | .Mul e1 e2 => 1 + nodes e1 + nodes e2
  | .DivMod e1 e2 => 1 + nodes e1 + nodes e2
  | .Let _ e body => 1 + nodes e + nodes body
  | .IfGreater e1 e2 e3 e4 => 1 + nodes e1 + nodes e2 + nodes e3 + nodes e4
  | .Closure env fn => 1 + envNodes env + nodes fn
  | .Fun _ _ body => 1 + nodes body
  | .Call _ actual => 1 + nodes actual
/-- The number of nodes of the trees bound in an environment. -/
def envNodes : Enviroment → Nat
  | .nil => 0
  | .cons _ value rest => nodes value + envNodes rest
end

mutual
/-- The number of nodes that `delete` of a tree releases: the node itself and,
through `destroy()`, what `delete` of the children releases.  In the source
`Void`, `Int` and `Var` have nothing to destroy, and `Def::destroy` is empty
too, so `delete` of a `Def` node does not reach its child. -/
def released : Exp → Nat
  | .Void => 1
  | .Int _ => 1
  | .IsVoid e => 1 + released e
  | .Pair e1 e2 => 1 + released e1 + released e2
  | .Fst e => 1 + released e
  | .Snd e => 1 + released e
  | .Neg e => 1 + released e
  | .Def _ _ => 1
  | .Var _ => 1
  | .Add e1 e2 => 1 + released e1 + released e2
  | .Mul e1 e2 => 1 + released e1 + released e2
  | .DivMod e1 e2 => 1 + released e1 + released e2
  | .Let _ e body => 1 + released e + released body
  | .IfGreater e1 e2 e3 e4 => 1 + released e1 + released e2 + released e3 + released e4
  | .Closure env fn => 1 + envReleased env + released fn
  | .Fun _ _ body => 1 + released body
  | .Call _ actual => 1 + released actual
/-- The number of nodes that the destructor of an environment releases. -/
def envReleased : Enviroment → Nat
  | .nil => 0
  | .cons _ value rest => released value + envReleased rest
end

/-- Go on after a recursive call inside a production, with the bookkeeping of
allocations.  `held` counts the nodes the production has allocated and not
released so far, `rel` those that `delete ret` would release now.  When the
call returned a tree, the tree is stored in `ret`: its nodes are held, and
`delete ret` reaches them when `destroys` says that `destroy()` of the node
deletes this child.  When the call returned `nullptr`, the production returns
`nullptr` too, after `delete ret` when `deletes` says so.  An exception leaves
the production with everything still allocated. -/
def childLive (r : ParseResult × Nat) (held rel : Nat) (deletes destroys : Bool)
    (k : Exp → Nat → Nat → Nat → ParseResult × Nat) : ParseResult × Nat :=
  match r with
  | (.tree e pos, live) => k e pos (held + live) (if destroys then rel + released e else rel)
  | (.null, live) => (.null, if deletes then held + live - rel else held + live)
  | (.out_of_range, live) => (.out_of_range, held + live)
  | (.undefined, live) => (.undefined, held + live)
  | (.out_of_fuel, live) => (.out_of_fuel, held + live)

/-- The test `if (p[i] != c) { delete ret; return nullptr; }` followed by `k`,
with the bookkeeping of allocations. -/
def expectLive (p : List Char) (i : Option Nat) (c : Char) (held rel : Nat)
    (k : ParseResult × Nat) : ParseResult × Nat :=
  match charAt p i with
  | none => (.undefined, held)
  | some d => if d ≠ c then (.null, held - rel) else k

/-- The cursor form `parse(const string & p, int & pos)` with the bookkeeping
of its allocations: next to the result, the number of nodes that the call
allocated with `new` and that are still allocated when it returns (the nodes of
the returned tree, when there is one).  Every production starts with one
`new`; `fst`, `snd`, `isvoid` and `neg` return `nullptr` without `delete ret`
when their operand is `nullptr`, the other productions delete. -/
def parseAtLive : Nat → List Char → Nat → ParseResult × Nat
  | 0, _, _ => (.out_of_fuel, 0)
  | fuel + 1, p, pos =>
    if pos ≥ p.length then (.null, 0)
    else if p.getD pos (Char.ofNat 0) ≠ '<' then (.null, 0)
    else if substr p (pos + 1) (some 4) = "void".toList then (.tree .Void (pos + 6), 1)
    else
      let end_name := find_first_of p ',' (some pos)
      let name := substr p (pos + 1) (size_sub end_name (pos + 1))
      let pos := plus_one end_name
      if name = "int".toList then
        let end_val := find_first_of p '>' end_name
        expectLive p end_val '>' 1 1 <|
          let val := substr p (plus_one end_name) (size_sub end_val (plus_one end_name))
          if !is_str_num val then (.null, 0)
          else
            match stoi val with
            | none => (.out_of_range, 1)
            | some value => (.tree (.Int value) (plus_one end_val), 1)
      else if name = "pair".toList then
        childLive (parseAtLive fuel p pos) 1 1 true true fun e1 pos held rel =>
        expectLive p (some pos) ',' held rel <|
        childLive (parseAtLive fuel p (pos + 1)) held rel true true fun e2 pos held rel =>
        expectLive p (some pos) '>' held rel <|
        (.tree (.Pair e1 e2) (pos + 1), held)
      else if name = "fst".toList then
        childLive (parseAtLive fuel p pos) 1 1 false true fun e pos held rel =>
        expectLive p (some pos) '>' held rel <|
        (.tree (.Fst e) (pos + 1), held)
      else if name = "snd".toList then
        childLive (parseAtLive fuel p pos) 1 1 false true fun e pos held rel =>
        expectLive p (some pos) '>' held rel <|
        (.tree (.Snd e) (pos + 1), held)
      else if name = "def".toList then
        let end_val := find_first_of p ',' (some (plus_one end_name))
        expectLive p end_val ',' 1 1 <|
          let var_name := substr p (plus_one end_name) (size_sub end_val (plus_one end_name))
          childLive (parseAtLive fuel p (plus_one end_val)) 1 1 true false
            fun e pos held rel =>
          expectLive p (some pos) '>' held rel <|
          (.tree (.Def var_name e) (pos + 1), held)
      else if name = "var".toList then
        let end_val := find_first_of p '>' end_name
        expectLive p end_val '>' 1 1 <|
          let var_name := substr p (plus_one end_name) (size_sub end_val (plus_one end_name))
          (.tree (.Var var_name) (plus_one end_val), 1)
      else if name = "isvoid".toList then
        childLive (parseAtLive fuel p pos) 1 1 false true fun e pos held rel =>
        expectLive p (some pos) '>' held rel <|
        (.tree (.IsVoid e) (pos + 1), held)
      else if name = "neg".toList then
        childLive (parseAtLive fuel p pos) 1 1 false true fun e pos held rel =>
        expectLive p (some pos) '>' held rel <|
        (.tree (.Neg e) (pos + 1), held)
      else if name = "add".toList then
        childLive (parseAtLive fuel p pos) 1 1 true true fun e1 pos held rel =>
        expectLive p (some pos) ',' held rel <|
        childLive (parseAtLive fuel p (pos + 1)) held rel true true fun e2 pos held rel =>
        expectLive p (some pos) '>' held rel <|
        (.tree (.Add e1 e2) (pos + 1), held)
      else if name = "mul".toList then
        childLive (parseAtLive fuel p pos) 1 1 true true fun e1 pos held rel =>
        expectLive p (some pos) ',' held rel <|
        childLive (parseAtLive fuel p (pos + 1)) held rel true true fun e2 pos held rel =>
        expectLive p (some pos) '>' held rel <|
        (.tree (.Mul e1 e2) (pos + 1), held)
      else if name = "divmod".toList then
        childLive (parseAtLive fuel p pos) 1 1 true true fun e1 pos held rel =>
        expectLive p (some pos) ',' held rel <|
        childLive (parseAtLive fuel p (pos + 1)) held rel true true fun e2 pos held rel =>
        expectLive p (some pos) '>' held rel <|
        (.tree (.DivMod e1 e2) (pos + 1), held)
      else if name = "let".toList then
        let end_var := find_first_of p ',' (some (plus_one end_name))
        expectLive p end_var ',' 1 1 <|
          let var := substr p (plus_one end_name) (size_sub end_var (plus_one end_name))
          childLive (parseAtLive fuel p (plus_one end_var)) 1 1 true true
            fun e pos held rel =>
          expectLive p (some pos) ',' held rel <|
          childLive (parseAtLive fuel p (pos + 1)) held rel true true
            fun body pos held rel =>
          expectLive p (some pos) '>' held rel <|
          (.tree (.Let var e body) (pos + 1), held)
      else if name = "ifgreater".toList then
        childLive (parseAtLive fuel p pos) 1 1 true true fun e1 pos held rel =>
        expectLive p (some pos) ',' held rel <|
        childLive (parseAtLive fuel p (pos + 1)) held rel true true fun e2 pos held rel =>
        expectLive p (some pos) ',' held rel <|
        childLive (parseAtLive fuel p (pos + 1)) held rel true true fun e3 pos held rel =>
        expectLive p (some pos) ',' held rel <|
        childLive (parseAtLive fuel p (pos + 1)) held rel true true fun e4 pos held rel =>
        expectLive p (some pos) '>' held rel <|
        (.tree (.IfGreater e1 e2 e3 e4) (pos + 1), held)
      else if name = "fun".toList then
        let end_fname := find_first_of p ',' (some (plus_one end_name))
        expectLive p end_fname ',' 1 1 <|
          let name := substr p (plus_one end_name) (size_sub end_fname (plus_one end_name))
          let end_val := find_first_of p ',' (some (plus_one end_fname))
          expectLive p end_val ',' 1 1 <|
            let formal :=
              substr p (plus_one end_fname) (size_sub end_val (plus_one end_fname))
            childLive (parseAtLive fuel p (plus_one end_val)) 1 1 true true
              fun body pos held rel =>
            expectLive p (some pos) '>' held rel <|
            (.tree (.Fun name formal body) (pos + 1), held)
      else if name = "call".toList then
        let end_val := find_first_of p ',' (some (plus_one end_name))
        expectLive p end_val ',' 1 1 <|
          let fname := substr p (plus_one end_name) (size_sub end_val (plus_one end_name))
          childLive (parseAtLive fuel p (plus_one end_val)) 1 1 true true
            fun actual pos held rel =>
          expectLive p (some pos) '>' held rel <|
          (.tree (.Call fname actual) (pos + 1), held)
      else (.null, 0)

/-- The tree has no `Call` node where `eval` can reach it: none outside the
bodies of its `Fun` nodes and outside its `Closure` nodes, which `eval` does
not enter.  A tree with no `Call` node at all is one. -/
def callFree : Exp → Prop
  | .Void => True
  | .Int _ => True
  | .IsVoid e => callFree e
  | .Pair e1 e2 => callFree e1 ∧ callFree e2
  | .Fst e => callFree e
  | .Snd e => callFree e
  | .Neg e => callFree e
  | .Def _ e => callFree e
  | .Var _ => True
  | .Add e1 e2 => callFree e1 ∧ callFree e2
  | .Mul e1 e2 => callFree e1 ∧ callFree e2
  | .DivMod e1 e2 => callFree e1 ∧ callFree e2
  | .Let _ e body => callFree e ∧ callFree body
  | .IfGreater e1 e2 e3 e4 => callFree e1 ∧ callFree e2 ∧ callFree e3 ∧ callFree e4
  | .Closure _ _ => True
  | .Fun _ _ _ => True
  | .Call _ _ => False

/-- The tree has no `Neg`, `Add`, `Mul` or `DivMod` node where `eval` can reach
it (outside the bodies of `Fun` nodes and outside `Closure` nodes): no machine
arithmetic is done when it is evaluated. -/
def arithFree : Exp → Prop
  | .Void => True
  | .Int _ => True
  | .IsVoid e => arithFree e
  | .Pair e1 e2 => arithFree e1 ∧ arithFree e2
  | .Fst e => arithFree e
  | .Snd e => arithFree e
  | .Neg _ => False
  | .Def _ e => arithFree e
  | .Var _ => True
  | .Add _ _ => False
  | .Mul _ _ => False
  | .DivMod _ _ => False
  | .Let _ e body => arithFree e ∧ arithFree body
  | .IfGreater e1 e2 e3 e4 => arithFree e1 ∧ arithFree e2 ∧ arithFree e3 ∧ arithFree e4
  | .Closure _ _ => True
  | .Fun _ _ _ => True
  | .Call _ actual => arithFree actual

/-- The steps that follow a call of `eval` in a body: those of `k` when the
call returned a tree, none when it threw. -/
def thenSteps (r : Outcome × Enviroment) (k : Exp → Enviroment → Nat) : Nat :=
  match r with
  | (.value v, env) => k v env
  | _ => 0

/-- The number of calls of `eval` that the call `eval fuel e env` makes, itself
included: one for the call, and those of the calls its body makes, each in the
environment and on the condition that the body of `eval` makes it. -/
def steps : Nat → Exp → Enviroment → Nat
  | 0, _, _ => 0
  | _ + 1, .Void, _ => 1
  | _ + 1, .Int _, _ => 1
  | n + 1, .IsVoid e, env => 1 + steps n e env
  | n + 1, .Pair e1 e2, env =>
    1 + steps n e1 env + thenSteps (eval n e1 env) fun _ env => steps n e2 env
  | n + 1, .Fst e, env => 1 + steps n e env
  | n + 1, .Snd e, env => 1 + steps n e env
  | n + 1, .Neg e, env => 1 + steps n e env
  | n + 1, .Def _ e, env => 1 + steps n e env
  | _ + 1, .Var _, _ => 1
  | n + 1, .Add e1 e2, env =>
    1 + steps n e1 env + thenSteps (eval n e1 env) fun _ env => steps n e2 env
  | n + 1, .Mul e1 e2, env =>
    1 + steps n e1 env + thenSteps (eval n e1 env) fun _ env => steps n e2 env
  | n + 1, .DivMod e1 e2, env =>
    1 + steps n e1 env + thenSteps (eval n e1 env) fun _ env => steps n e2 env
  | n + 1, .Let var e body, env =>
    1 + steps n e env + thenSteps (eval n e env) fun v env => steps n body (env.insert var v)
  | n + 1, .IfGreater e1 e2 e3 e4, env =>
    1 + steps n e1 env + thenSteps (eval n e1 env) fun ee1 env =>
      steps n e2 env + thenSteps (eval n e2 env) fun ee2 env =>
        match ee1, ee2 with
        | .Int a, .Int b => if a.val > b.val then steps n e3 env else steps n e4 env
        | _, _ => 0
  | _ + 1, .Closure _ _, _ => 1
  | _ + 1, .Fun _ _ _, _ => 1
  | n + 1, .Call fname actual, env =>
    match envlookup env fname with
    | some (.Closure cenv (.Fun name formal body)) =>
      1 + steps n actual env + thenSteps (eval n actual env) fun v _ =>
        steps n body
          ((cenv.insert name (.Closure cenv (.Fun name formal body))).insert formal v)
    | _ => 1

/-- A function that calls itself on its argument: the tree of
`<fun,f,x,<call,f,<var,x>>>`. -/
def forever : Exp :=
  .Fun ['f'] ['x'] (.Call ['f'] (.Var ['x']))

/-! ## Lemmas on strings and on the decimal rendering of an `int` -/

theorem drop_succ_of_drop {p : List Char} {i : Nat} {c : Char} {r : List Char}
    (h : p.drop i = c :: r) : p.drop (i + 1) = r := by
  rw [← List.drop_drop, h]; rfl

theorem parseAt_pair_loops (fuel : Nat) : parseAt fuel "<pair".toList 0 = .out_of_fuel := by
  induction fuel with
  | zero => rfl
  | succ n ih =>
    have h : parseAt (n + 1) "<pair".toList 0
        = (parseAt n "<pair".toList 0).andThen fun e1 pos =>
            expect "<pair".toList (some pos) ',' <|
            (parseAt n "<pair".toList (pos + 1)).andThen fun e2 pos =>
            expect "<pair".toList (some pos) '>' <|
            .tree (.Pair e1 e2) (pos + 1) := by
      rw [parseAt]
      rfl
    rw [h, ih]
    rfl

/-- Claim C4: the code at truncated texts.  The prefix `<void` of `<void>` is not
rejected: for every positive fuel the entry point returns the tree `Void`.  The
prefix `<add,<int,3>` of the spec is rejected with the exception of the entry
point.  The prefix `<pair` of a pair is not rejected either: the recursive
descent calls itself at cursor 0 again and never returns. -/
theorem parse_truncated_void (fuel : Nat) :
    parse (fuel + 1) "<void".toList = .tree .Void ∧
      parse (fuel + 2) "<add,<int,3>".toList = .logic_error "bad formed expression" ∧
      parse fuel "<pair".toList = .out_of_fuel := by
  refine ⟨?_, ?_, ?_⟩
  · simp only [parse]
    rw [show remove_whites "<void".toList = "<void".toList by decide, parseAt]
    rfl
  · simp only [parse]
    rw [show remove_whites "<add,<int,3>".toList = "<add,<int,3>".toList by decide]
    simp [parseAt, find_first_of, firstIndex, substr, size_sub, plus_one, expect, charAt,
      ParseResult.andThen, is_str_num, stoi, digitsValue, CInt.ofInt?]
  · simp only [parse]
    rw [show remove_whites "<pair".toList = "<pair".toList by decide, parseAt_pair_loops]
    rfl

/-! ## The evaluator -/

theorem andThen_value (v : Exp) (env : Enviroment)
    (k : Exp → Enviroment → Outcome × Enviroment) : andThen (.value v, env) k = k v env := rfl

theorem andThen_snd_of_snd (r : Outcome × Enviroment)
    (k : Exp → Enviroment → Outcome × Enviroment) (h : ∀ v env, (k v env).2 = env) :
    (andThen r k).2 = r.2 := by
  obtain ⟨o, env⟩ := r
  cases o <;> simp [andThen, h]

theorem CInt.ext_val {a b : CInt} (h : a.val = b.val) : a = b := by
  cases a; cases b; simp only at h; subst h; rfl

/-- Claim C5 (call semantics).  When `name` is bound in `env`, first, to
`Closure(cenv, Fun(f, x, body))` and the argument evaluates in `env` to `v`,
leaving `env1`: `Call(name, arg)` ends as the body does in the environment
made of `cenv`, then `(f, that closure)` in front, then `(x, v)` in front of
it, and leaves the caller with `env1`.  In that environment `x` is
bound to `v` (also when `x = f`), `f` is bound to the closure when `x ≠ f`, and
every other name is bound as in `cenv`, whatever the caller had bound. -/
theorem call_semantics (n : Nat) (name : List Char) (arg : Exp) (env cenv : Enviroment)
    (f x : List Char) (body v : Exp) (env1 : Enviroment)
    (hl : envlookup env name = some (.Closure cenv (.Fun f x body)))
    (ha : eval n arg env = (.value v, env1)) :
    eval (n + 1) (.Call name arg) env
        = ((eval n body ((cenv.insert f (.Closure cenv (.Fun f x body))).insert x v)).1, env1) ∧
      envlookup ((cenv.insert f (.Closure cenv (.Fun f x body))).insert x v) x = some v ∧
      (x ≠ f → envlookup ((cenv.insert f (.Closure cenv (.Fun f x body))).insert x v) f
        = some (.Closure cenv (.Fun f x body))) ∧
      ∀ m, m ≠ x → m ≠ f →
        envlookup ((cenv.insert f (.Closure cenv (.Fun f x body))).insert x v) m
          = envlookup cenv m := by
  refine ⟨?_, ?_, ?_, ?_⟩
  · rw [eval]
    simp only [hl, ha, andThen_value]
  · simp [Enviroment.insert, envlookup]
  · intro hxf
    simp [Enviroment.insert, envlookup, hxf]
  · intro m hmx hmf
    simp [Enviroment.insert, envlookup, Ne.symm hmx, Ne.symm hmf]

/-- A witness of `call_semantics`: the identity function applied to `Int(7)`. -/
theorem call_semantics_witness :
    eval 2 (.Call ['g'] (.Int ⟨7, by decide⟩))
        (.cons ['g'] (.Closure .nil (.Fun ['f'] ['x'] (.Var ['x']))) .nil)
      = (.value (.Int ⟨7, by decide⟩),
          .cons ['g'] (.Closure .nil (.Fun ['f'] ['x'] (.Var ['x']))) .nil) :=
  (call_semantics 1 ['g'] (.Int ⟨7, by decide⟩)
    (.cons ['g'] (.Closure .nil (.Fun ['f'] ['x'] (.Var ['x']))) .nil) .nil ['f'] ['x']
    (.Var ['x']) (.Int ⟨7, by decide⟩)
    (.cons ['g'] (.Closure .nil (.Fun ['f'] ['x'] (.Var ['x']))) .nil) rfl rfl).1

theorem eval_Var (n : Nat) (x : List Char) (env : Enviroment) :
    eval (n + 1) (.Var x) env
      = match envlookup env x with
        | none => (.domain_error "var does not exist", env)
        | some e => (.value e, env) := by
  rw [eval]

theorem eval_Int (n : Nat) (v : CInt) (env : Enviroment) :
    eval (n + 1) (.Int v) env = (.value (.Int v), env) := by
  rw [eval]

theorem countdown_body (j : Nat) : ∀ (c : CInt), c.val = j → ∀ fuel, 3 * j + 2 ≤ fuel →
    eval fuel
        (.IfGreater (.Var ['n']) (.Int CInt.zero)
          (.Add (.Call ['f'] (.Add (.Var ['n']) (.Int CInt.minusOne))) (.Int CInt.one))
          (.Int CInt.zero))
        (.cons ['n'] (.Int c) (.cons ['f'] (.Closure .nil countdown) .nil))
      = (.value (.Int c), .cons ['n'] (.Int c) (.cons ['f'] (.Closure .nil countdown) .nil)) := by
  induction j with
  | zero =>
    intro c hc fuel hf
    obtain ⟨m, rfl⟩ : ∃ m, fuel = m + 2 := ⟨fuel - 2, by omega⟩
    have hc0 : c = CInt.zero := CInt.ext_val (by simpa [CInt.zero] using hc)
    subst hc0
    simp [eval, andThen, envlookup, CInt.zero]
  | succ j ih =>
    intro c hc fuel hf
    obtain ⟨m, rfl⟩ : ∃ m, fuel = m + 5 := ⟨fuel - 5, by omega⟩
    have hr := c.inRange
    have hj : (-2147483648 : Int) ≤ (j : Int) ∧ (j : Int) ≤ 2147483647 := by
      constructor <;> push_cast at hc <;> omega
    have ih1 := ih ⟨j, hj⟩ rfl (m + 2) (by omega)
    have hpos : c.val > 0 := by rw [hc]; positivity
    have hsub : c.val + -1 = (j : Int) := by rw [hc]; push_cast; ring
    have hadd : (j : Int) + 1 = c.val := by rw [hc]; push_cast; ring
    have hA : eval (m + 2) (.Add (.Var ['n']) (.Int CInt.minusOne))
        (.cons ['n'] (.Int c) (.cons ['f'] (.Closure .nil countdown) .nil))
        = (.value (.Int ⟨j, hj⟩),
            .cons ['n'] (.Int c) (.cons ['f'] (.Closure .nil countdown) .nil)) := by
      rw [eval]
      simp [eval_Var, eval_Int, andThen, envlookup, intResult, CInt.ofInt?, CInt.minusOne, hsub,
        hj]
    have hCall : eval (m + 3) (.Call ['f'] (.Add (.Var ['n']) (.Int CInt.minusOne)))
        (.cons ['n'] (.Int c) (.cons ['f'] (.Closure .nil countdown) .nil))
        = (.value (.Int ⟨j, hj⟩),
            .cons ['n'] (.Int c) (.cons ['f'] (.Closure .nil countdown) .nil)) := by
      have hl : envlookup (.cons ['n'] (.Int c) (.cons ['f'] (.Closure .nil countdown) .nil))
          ['f'] = some (.Closure .nil (.Fun ['f'] ['n']
            (.IfGreater (.Var ['n']) (.Int CInt.zero)
              (.Add (.Call ['f'] (.Add (.Var ['n']) (.Int CInt.minusOne))) (.Int CInt.one))
              (.Int CInt.zero)))) := by
        simp [envlookup, countdown]
      rw [eval]
      simp only [hl, hA, andThen_value, Enviroment.insert]
      rw [show Exp.Closure .nil (.Fun ['f'] ['n']
            (.IfGreater (.Var ['n']) (.Int CInt.zero)
              (.Add (.Call ['f'] (.Add (.Var ['n']) (.Int CInt.minusOne))) (.Int CInt.one))
              (.Int CInt.zero))) = Exp.Closure .nil countdown from rfl, ih1]
    have hAdd : eval (m + 4)
        (.Add (.Call ['f'] (.Add (.Var ['n']) (.Int CInt.minusOne))) (.Int CInt.one))
        (.cons ['n'] (.Int c) (.cons ['f'] (.Closure .nil countdown) .nil))
        = (.value (.Int c),
            .cons ['n'] (.Int c) (.cons ['f'] (.Closure .nil countdown) .nil)) := by
      have hres : intResult ((j : Int) + 1) = .value (.Int c) := by
        rw [hadd]
        unfold intResult CInt.ofInt?
        rw [dif_pos hr]
      rw [eval, hCall]
      simp only [andThen_value, eval_Int]
      rw [show CInt.one.val = 1 from rfl, hres]
    rw [eval]
    simp [eval_Var, eval_Int, andThen, envlookup, CInt.zero, hpos, hAdd]

/-- Claim C6 (recursion through the self-binding made at call time).  The text of
the countdown parses to the tree `countdown`; evaluating it in the empty
environment binds `f` to a closure whose captured environment is empty, so has
no binding of `f`; and for every `int` `k ≥ 0`, every fuel from `3 * k + 3` on
makes `Call(f, Int(k))` in that environment return `Int(k)` and leave the
environment as it was. -/
theorem countdown_recursion (k : CInt) (hk : 0 ≤ k.val) (fuel : Nat)
    (hf : 3 * k.val.toNat + 3 ≤ fuel) :
    parse 6 countdownText = .tree countdown ∧
      (∀ m, eval (m + 1) countdown .nil
        = (.value .Void, .cons ['f'] (.Closure .nil countdown) .nil)) ∧
      envlookup .nil ['f'] = none ∧
      eval fuel (.Call ['f'] (.Int k)) (.cons ['f'] (.Closure .nil countdown) .nil)
        = (.value (.Int k), .cons ['f'] (.Closure .nil countdown) .nil) := by
  refine ⟨by decide, fun m => ?_, rfl, ?_⟩
  · simp only [countdown]
    rw [eval]
    rfl
  · obtain ⟨m, rfl⟩ : ∃ m, fuel = m + 2 := ⟨fuel - 2, by omega⟩
    have hb := countdown_body k.val.toNat k (by omega) (m + 1) (by omega)
    have hl : envlookup (.cons ['f'] (.Closure .nil countdown) .nil) ['f']
        = some (.Closure .nil (.Fun ['f'] ['n']
          (.IfGreater (.Var ['n']) (.Int CInt.zero)
            (.Add (.Call ['f'] (.Add (.Var ['n']) (.Int CInt.minusOne))) (.Int CInt.one))
            (.Int CInt.zero)))) := by
      simp [envlookup, countdown]
    rw [eval]
    simp only [hl, eval_Int, andThen_value, Enviroment.insert]
    rw [show Exp.Closure .nil (.Fun ['f'] ['n']
          (.IfGreater (.Var ['n']) (.Int CInt.zero)
            (.Add (.Call ['f'] (.Add (.Var ['n']) (.Int CInt.minusOne))) (.Int CInt.one))
            (.Int CInt.zero))) = Exp.Closure .nil countdown from rfl, hb]

/-- A witness of `countdown_recursion`: the countdown from 2. -/
theorem countdown_recursion_witness :
    eval 9 (.Call ['f'] (.Int ⟨2, by decide⟩)) (.cons ['f'] (.Closure .nil countdown) .nil)
      = (.value (.Int ⟨2, by decide⟩), .cons ['f'] (.Closure .nil countdown) .nil) :=
  (countdown_recursion ⟨2, by decide⟩ (by decide) 9 (by decide)).2.2.2

theorem andThen_eq_value {r : Outcome × Enviroment}
    {k : Exp → Enviroment → Outcome × Enviroment} {v : Exp} {env' : Enviroment}
    (h : andThen r k = (.value v, env')) :
    ∃ v1 env1, r = (.value v1, env1) ∧ k v1 env1 = (.value v, env') := by
  obtain ⟨o, env⟩ := r
  cases o with
  | value v1 => exact ⟨v1, env, rfl, h⟩
  | domain_error w => simp [andThen] at h
  | undefined => simp [andThen] at h
  | out_of_fuel => simp [andThen] at h

theorem intResult_eq_value {z : Int} {v : Exp} (h : intResult z = .value v) :
    ∃ c, v = .Int c := by
  unfold intResult at h
  split at h
  · rename_i c _
    exact ⟨c, by cases h; rfl⟩
  · cases h

theorem divmodResult_eq_value {a b : CInt} {v : Exp} (h : divmodResult a b = .value v) :
    ∃ q r, v = .Pair (.Int q) (.Int r) := by
  unfold divmodResult at h
  split at h
  · cases h
  · split at h
    · rename_i q r _ _
      exact ⟨q, r, by cases h; rfl⟩
    · cases h

theorem envlookup_good : ∀ (env : Enviroment) (x : List Char) (v : Exp),
    bindsValues env → envClosuresOk env → envlookup env x = some v →
      isValue v ∧ closuresOk v
  | .nil, _, _, _, _, h => by simp [envlookup] at h
  | .cons name value rest, x, v, hb, hc, h => by
    simp only [bindsValues] at hb
    simp only [envClosuresOk] at hc
    simp only [envlookup] at h
    split at h
    · cases h; exact ⟨hb.1, hc.1⟩
    · exact envlookup_good rest x v hb.2 hc.2 h

theorem eval_good : ∀ (n : Nat) (e : Exp) (env : Enviroment) (v : Exp) (env' : Enviroment),
    closuresOk e → bindsValues env → envClosuresOk env → eval n e env = (.value v, env') →
      isValue v ∧ closuresOk v ∧ bindsValues env' ∧ envClosuresOk env' := by
  intro n
  induction n with
  | zero => intro e env v env' _ _ _ h; simp [eval] at h
  | succ n ih =>
    intro e env v env' he hb hc h
    cases e with
    | Void =>
      rw [eval] at h; cases h
      exact ⟨trivial, trivial, hb, hc⟩
    | Int c =>
      rw [eval] at h; cases h
      exact ⟨trivial, trivial, hb, hc⟩
    | IsVoid e =>
      rw [eval] at h
      simp only [closuresOk] at he
      obtain ⟨v1, env1, h1, h2⟩ := andThen_eq_value h
      obtain ⟨-, -, b1, c1⟩ := ih e env v1 env1 he hb hc h1
      split at h2 <;> cases h2 <;> exact ⟨trivial, trivial, b1, c1⟩
    | Pair e1 e2 =>
      rw [eval] at h
      simp only [closuresOk] at he
      obtain ⟨v1, env1, h1, h2⟩ := andThen_eq_value h
      obtain ⟨v2, env2, h3, h4⟩ := andThen_eq_value h2
      obtain ⟨a1, a2, b1, c1⟩ := ih e1 env v1 env1 he.1 hb hc h1
      obtain ⟨a3, a4, b2, c2⟩ := ih e2 env1 v2 env2 he.2 b1 c1 h3
      cases h4
      exact ⟨⟨a1, a3⟩, ⟨a2, a4⟩, b2, c2⟩
    | Fst e =>
      rw [eval] at h
      simp only [closuresOk] at he
      obtain ⟨v1, env1, h1, h2⟩ := andThen_eq_value h
      obtain ⟨a1, a2, b1, c1⟩ := ih e env v1 env1 he hb hc h1
      split at h2
      · cases h2
        simp only [isValue] at a1
        simp only [closuresOk] at a2
        exact ⟨a1.1, a2.1, b1, c1⟩
      · cases h2
    | Snd e =>
      rw [eval] at h
      simp only [closuresOk] at he
      obtain ⟨v1, env1, h1, h2⟩ := andThen_eq_value h
      obtain ⟨a1, a2, b1, c1⟩ := ih e env v1 env1 he hb hc h1
      split at h2
      · cases h2
        simp only [isValue] at a1
        simp only [closuresOk] at a2
        exact ⟨a1.2, a2.2, b1, c1⟩
      · cases h2
    | Neg e =>
      rw [eval] at h
      simp only [closuresOk] at he
      obtain ⟨v1, env1, h1, h2⟩ := andThen_eq_value h
      obtain ⟨-, -, b1, c1⟩ := ih e env v1 env1 he hb hc h1
      split at h2
      · simp only [Prod.mk.injEq] at h2
        obtain ⟨c, rfl⟩ := intResult_eq_value h2.1
        rw [← h2.2]
        exact ⟨trivial, trivial, b1, c1⟩
      · cases h2
    | Def x e =>
      rw [eval] at h
      simp only [closuresOk] at he
      obtain ⟨v1, env1, h1, h2⟩ := andThen_eq_value h
      obtain ⟨a1, a2, b1, c1⟩ := ih e env v1 env1 he hb hc h1
      cases h2
      exact ⟨trivial, trivial, ⟨a1, b1⟩, ⟨a2, c1⟩⟩
    | Var x =>
      rw [eval] at h
      split at h
      · cases h
      · rename_i w hw
        cases h
        obtain ⟨a1, a2⟩ := envlookup_good env x _ hb hc hw
        exact ⟨a1, a2, hb, hc⟩
    | Add e1 e2 =>
      rw [eval] at h
      simp only [closuresOk] at he
      obtain ⟨v1, env1, h1, h2⟩ := andThen_eq_value h
      obtain ⟨v2, env2, h3, h4⟩ := andThen_eq_value h2
      obtain ⟨-, -, b1, c1⟩ := ih e1 env v1 env1 he.1 hb hc h1
      obtain ⟨-, -, b2, c2⟩ := ih e2 env1 v2 env2 he.2 b1 c1 h3
      split at h4
      · simp only [Prod.mk.injEq] at h4
        obtain ⟨c, rfl⟩ := intResult_eq_value h4.1
        rw [← h4.2]
        exact ⟨trivial, trivial, b2, c2⟩
      · cases h4
    | Mul e1 e2 =>
      rw [eval] at h
      simp only [closuresOk] at he
      obtain ⟨v1, env1, h1, h2⟩ := andThen_eq_value h
      obtain ⟨v2, env2, h3, h4⟩ := andThen_eq_value h2
      obtain ⟨-, -, b1, c1⟩ := ih e1 env v1 env1 he.1 hb hc h1
      obtain ⟨-, -, b2, c2⟩ := ih e2 env1 v2 env2 he.2 b1 c1 h3
      split at h4
      · simp only [Prod.mk.injEq] at h4
        obtain ⟨c, rfl⟩ := intResult_eq_value h4.1
        rw [← h4.2]
        exact ⟨trivial, trivial, b2, c2⟩
      · cases h4
    | DivMod e1 e2 =>
      rw [eval] at h
      simp only [closuresOk] at he
      obtain ⟨v1, env1, h1, h2⟩ := andThen_eq_value h
      obtain ⟨v2, env2, h3, h4⟩ := andThen_eq_value h2
      obtain ⟨-, -, b1, c1⟩ := ih e1 env v1 env1 he.1 hb hc h1
      obtain ⟨-, -, b2, c2⟩ := ih e2 env1 v2 env2 he.2 b1 c1 h3
      split at h4
      · simp only [Prod.mk.injEq] at h4
        obtain ⟨q, r, rfl⟩ := divmodResult_eq_value h4.1
        rw [← h4.2]
        exact ⟨⟨trivial, trivial⟩, ⟨trivial, trivial⟩, b2, c2⟩
      · cases h4
    | Let x e body =>
      rw [eval] at h
      simp only [closuresOk] at he
      obtain ⟨v1, env1, h1, h2⟩ := andThen_eq_value h
      obtain ⟨a1, a2, b1, c1⟩ := ih e env v1 env1 he.1 hb hc h1
      simp only [Prod.mk.injEq] at h2
      obtain ⟨a3, a4, -, -⟩ := ih body (env1.insert x v1) v
        (eval n body (env1.insert x v1)).2 he.2 ⟨a1, b1⟩ ⟨a2, c1⟩
        (by rw [← h2.1])
      rw [← h2.2]
      exact ⟨a3, a4, b1, c1⟩
    | IfGreater e1 e2 e3 e4 =>
      rw [eval] at h
      simp only [closuresOk] at he
      obtain ⟨v1, env1, h1, h2⟩ := andThen_eq_value h
      obtain ⟨v2, env2, h3, h4⟩ := andThen_eq_value h2
      obtain ⟨-, -, b1, c1⟩ := ih e1 env v1 env1 he.1 hb hc h1
      obtain ⟨-, -, b2, c2⟩ := ih e2 env1 v2 env2 he.2.1 b1 c1 h3
      split at h4
      · split at h4
        · exact ih e3 env2 v env' he.2.2.1 b2 c2 h4
        · exact ih e4 env2 v env' he.2.2.2 b2 c2 h4
      · cases h4
    | Closure cenv fn =>
      rw [eval] at h
      cases h
      simp only [closuresOk] at he
      exact ⟨he.1, he, hb, hc⟩
    | Fun name formal body =>
      rw [eval] at h
      cases h
      simp only [closuresOk] at he
      exact ⟨trivial, trivial, ⟨hb, hb⟩, ⟨⟨hb, hc, he⟩, hc⟩⟩
    | Call fname actual =>
      rw [eval] at h
      simp only [closuresOk] at he
      split at h
      · cases h
      · rename_i cenv name formal body hl
        obtain ⟨g1, g2⟩ := envlookup_good env fname _ hb hc hl
        simp only [isValue] at g1
        simp only [closuresOk] at g2
        obtain ⟨v1, env1, h1, h2⟩ := andThen_eq_value h
        obtain ⟨a1, a2, b1, c1⟩ := ih actual env v1 env1 he hb hc h1
        simp only [Prod.mk.injEq] at h2
        obtain ⟨a3, a4, -, -⟩ := ih body
          ((cenv.insert name (.Closure cenv (.Fun name formal body))).insert formal v1) v
          (eval n body
            ((cenv.insert name (.Closure cenv (.Fun name formal body))).insert formal v1)).2
          g2.2.2 ⟨a1, g1, g1⟩ ⟨a2, ⟨g2.1, g2.2.1, g2.2.2⟩, g2.2.1⟩ (by rw [← h2.1])
        rw [← h2.2]
        exact ⟨a3, a4, b1, c1⟩
      · cases h
      · cases h

theorem closuresOk_of_sourceTree : ∀ (e : Exp), sourceTree e → closuresOk e
  | .Void, _ => trivial
  | .Int _, _ => trivial
  | .Var _, _ => trivial
  | .IsVoid e, h => by
    simp only [sourceTree] at h; simp only [closuresOk]; exact closuresOk_of_sourceTree e h
  | .Fst e, h => by
    simp only [sourceTree] at h; simp only [closuresOk]; exact closuresOk_of_sourceTree e h
  | .Snd e, h => by
    simp only [sourceTree] at h; simp only [closuresOk]; exact closuresOk_of_sourceTree e h
  | .Neg e, h => by
    simp only [sourceTree] at h; simp only [closuresOk]; exact closuresOk_of_sourceTree e h
  | .Def _ e, h => by
    simp only [sourceTree] at h; simp only [closuresOk]; exact closuresOk_of_sourceTree e h.2
  | .Call _ e, h => by
    simp only [sourceTree] at h; simp only [closuresOk]; exact closuresOk_of_sourceTree e h.2
  | .Fun _ _ e, h => by
    simp only [sourceTree] at h; simp only [closuresOk]
    exact closuresOk_of_sourceTree e h.2.2
  | .Pair e1 e2, h => by
    simp only [sourceTree] at h; simp only [closuresOk]
    exact ⟨closuresOk_of_sourceTree e1 h.1, closuresOk_of_sourceTree e2 h.2⟩
  | .Add e1 e2, h => by
    simp only [sourceTree] at h; simp only [closuresOk]
    exact ⟨closuresOk_of_sourceTree e1 h.1, closuresOk_of_sourceTree e2 h.2⟩
  | .Mul e1 e2, h => by
    simp only [sourceTree] at h; simp only [closuresOk]
    exact ⟨closuresOk_of_sourceTree e1 h.1, closuresOk_of_sourceTree e2 h.2⟩
  | .DivMod e1 e2, h => by
    simp only [sourceTree] at h; simp only [closuresOk]
    exact ⟨closuresOk_of_sourceTree e1 h.1, closuresOk_of_sourceTree e2 h.2⟩
  | .Let _ e1 e2, h => by
    simp only [sourceTree] at h; simp only [closuresOk]
    exact ⟨closuresOk_of_sourceTree e1 h.2.1, closuresOk_of_sourceTree e2 h.2.2⟩
  | .IfGreater e1 e2 e3 e4, h => by
    simp only [sourceTree] at h; simp only [closuresOk]
    exact ⟨closuresOk_of_sourceTree e1 h.1, closuresOk_of_sourceTree e2 h.2.1,
      closuresOk_of_sourceTree e3 h.2.2.1, closuresOk_of_sourceTree e4 h.2.2.2⟩
  | .Closure _ _, h => by simp [sourceTree] at h

/-- Claim C7, as stated, fails.  A `Closure` node that captures a binding which
is no value evaluates to itself; and in an environment whose only binding is
the value `Closure([], Fun(f, x, b))`, where the body `b` is such a `Closure`
node, the source expression `Call(g, Void)` returns `b`.  Neither result is a
value. -/
theorem eval_value_counterexample :
    bindsValues .nil ∧
      eval 1 (.Closure (.cons ['y'] (.Var ['z']) .nil) (.Fun ['f'] ['x'] .Void)) .nil
        = (.value (.Closure (.cons ['y'] (.Var ['z']) .nil) (.Fun ['f'] ['x'] .Void)), .nil) ∧
      bindsValues (.cons ['g'] (.Closure .nil (.Fun ['f'] ['x']
        (.Closure (.cons ['y'] (.Var ['z']) .nil) (.Fun ['f'] ['x'] .Void)))) .nil) ∧
      (eval 2 (.Call ['g'] .Void) (.cons ['g'] (.Closure .nil (.Fun ['f'] ['x']
        (.Closure (.cons ['y'] (.Var ['z']) .nil) (.Fun ['f'] ['x'] .Void)))) .nil)).1
        = .value (.Closure (.cons ['y'] (.Var ['z']) .nil) (.Fun ['f'] ['x'] .Void)) ∧
      ¬ isValue (.Closure (.cons ['y'] (.Var ['z']) .nil) (.Fun ['f'] ['x'] .Void)) := by
  refine ⟨trivial, rfl, ?_, rfl, ?_⟩
  · simp [bindsValues, isValue]
  · simp [bindsValues, isValue]

/-- Claim C7, amended.  Let every `Closure` node of `e`, and of the trees bound in
`env`, capture only values at any depth (as in every parsed program, which has
no `Closure` node, and in the empty environment), and let every binding of
`env` be a value.  Whenever `eval` returns a tree, that tree is a value, the
bindings of the environment afterwards are all values, and the condition on
`Closure` nodes still holds of both. -/
theorem eval_results_are_values (n : Nat) (e : Exp) (env : Enviroment) (v : Exp)
    (env' : Enviroment) (he : closuresOk e) (hb : bindsValues env) (hc : envClosuresOk env)
    (h : eval n e env = (.value v, env')) :
    isValue v ∧ bindsValues env' ∧ closuresOk v ∧ envClosuresOk env' := by
  obtain ⟨a1, a2, a3, a4⟩ := eval_good n e env v env' he hb hc h
  exact ⟨a1, a3, a2, a4⟩

/-- A witness of `eval_results_are_values`: a parsed program run in the empty
environment, which defines a function and calls it. -/
theorem eval_results_are_values_witness :
    isValue (.Pair .Void (.Int ⟨7, by decide⟩)) ∧
      bindsValues (.cons ['f'] (.Closure .nil (.Fun ['f'] ['x'] (.Var ['x']))) .nil) ∧
      closuresOk (.Pair .Void (.Int ⟨7, by decide⟩)) ∧
      envClosuresOk (.cons ['f'] (.Closure .nil (.Fun ['f'] ['x'] (.Var ['x']))) .nil) :=
  eval_results_are_values 4
    (.Pair (.Fun ['f'] ['x'] (.Var ['x'])) (.Call ['f'] (.Int ⟨7, by decide⟩))) .nil
    (.Pair .Void (.Int ⟨7, by decide⟩))
    (.cons ['f'] (.Closure .nil (.Fun ['f'] ['x'] (.Var ['x']))) .nil)
    (by simp [closuresOk]) trivial trivial rfl

theorem andThen_snd_eq (r : Outcome × Enviroment)
    (k : Exp → Enviroment → Outcome × Enviroment) (env : Enviroment) (hr : r.2 = env)
    (hk : ∀ v, (k v env).2 = env) : (andThen r k).2 = env := by
  obtain ⟨o, env1⟩ := r
  simp only at hr
  subst hr
  cases o <;> simp [andThen, hk]

theorem eval_snd_of_not_bindsAmbient : ∀ (n : Nat) (e : Exp) (env : Enviroment),
    bindsAmbient e = false → (eval n e env).2 = env := by
  intro n
  induction n with
  | zero => intro e env _; rfl
  | succ n ih =>
    intro e env he
    cases e with
    | Void => rw [eval]
    | Int c => rw [eval]
    | IsVoid e =>
      rw [eval]
      simp only [bindsAmbient] at he
      refine andThen_snd_eq _ _ env (ih e env he) fun v => ?_
      split <;> rfl
    | Pair e1 e2 =>
      rw [eval]
      simp only [bindsAmbient, Bool.or_eq_false_iff] at he
      refine andThen_snd_eq _ _ env (ih e1 env he.1) fun v => ?_
      exact andThen_snd_eq _ _ env (ih e2 env he.2) fun w => rfl
    | Fst e =>
      rw [eval]
      simp only [bindsAmbient] at he
      refine andThen_snd_eq _ _ env (ih e env he) fun v => ?_
      split <;> rfl
    | Snd e =>
      rw [eval]
      simp only [bindsAmbient] at he
      refine andThen_snd_eq _ _ env (ih e env he) fun v => ?_
      split <;> rfl
    | Neg e =>
      rw [eval]
      simp only [bindsAmbient] at he
      refine andThen_snd_eq _ _ env (ih e env he) fun v => ?_
      split <;> rfl
    | Def x e => simp [bindsAmbient] at he
    | Var x =>
      rw [eval]
      split <;> rfl
    | Add e1 e2 =>
      rw [eval]
      simp only [bindsAmbient, Bool.or_eq_false_iff] at he
      refine andThen_snd_eq _ _ env (ih e1 env he.1) fun v => ?_
      refine andThen_snd_eq _ _ env (ih e2 env he.2) fun w => ?_
      split <;> rfl
    | Mul e1 e2 =>
      rw [eval]
      simp only [bindsAmbient, Bool.or_eq_false_iff] at he
      refine andThen_snd_eq _ _ env (ih e1 env he.1) fun v => ?_
      refine andThen_snd_eq _ _ env (ih e2 env he.2) fun w => ?_
      split <;> rfl
    | DivMod e1 e2 =>
      rw [eval]
      simp only [bindsAmbient, Bool.or_eq_false_iff] at he
      refine andThen_snd_eq _ _ env (ih e1 env he.1) fun v => ?_
      refine andThen_snd_eq _ _ env (ih e2 env he.2) fun w => ?_
      split <;> rfl
    | Let x e body =>
      rw [eval]
      simp only [bindsAmbient] at he
      exact andThen_snd_eq _ _ env (ih e env he) fun v => rfl
    | IfGreater e1 e2 e3 e4 =>
      rw [eval]
      simp only [bindsAmbient, Bool.or_eq_false_iff] at he
      refine andThen_snd_eq _ _ env (ih e1 env he.1.1.1) fun v => ?_
      refine andThen_snd_eq _ _ env (ih e2 env he.1.1.2) fun w => ?_
      split
      · split
        · exact ih e3 env he.1.2
        · exact ih e4 env he.2
      · rfl
    | Closure cenv fn => rw [eval]
    | Fun name formal body => simp [bindsAmbient] at he
    | Call fname actual =>
      rw [eval]
      simp only [bindsAmbient] at he
      split
      · rfl
      · exact andThen_snd_eq _ _ env (ih actual env he) fun v => rfl
      · rfl
      · rfl

/-- Claim C8, as stated, fails: `Let(x, Def(y, Int(1)), Var(x))` evaluated in the
empty environment succeeds and leaves the caller an environment that binds
`y`. -/
theorem let_env_counterexample :
    eval 3 (.Let ['x'] (.Def ['y'] (.Int ⟨1, by decide⟩)) (.Var ['x'])) .nil
        = (.value .Void, .cons ['y'] (.Int ⟨1, by decide⟩) .nil) ∧
      Enviroment.cons ['y'] (.Int ⟨1, by decide⟩) .nil ≠ .nil := by
  decide

/-- Claim C8, amended.  After `eval(Let(name, bound, body), env)`, however it
ends, the caller holds the environment that evaluating `bound` in `env` left:
the binding of `name` and whatever `body` binds are gone.  It is `env` itself,
binding for binding, when `bound` has no `Def` and no `Fun` at a place that is
evaluated in the environment of the caller. -/
theorem let_env (n : Nat) (name : List Char) (bound body : Exp) (env : Enviroment) :
    (eval (n + 1) (.Let name bound body) env).2 = (eval n bound env).2 ∧
      (bindsAmbient bound = false → (eval (n + 1) (.Let name bound body) env).2 = env) := by
  have h1 : (eval (n + 1) (.Let name bound body) env).2 = (eval n bound env).2 := by
    rw [eval]
    exact andThen_snd_of_snd _ _ fun v env1 => rfl
  exact ⟨h1, fun hb => h1.trans (eval_snd_of_not_bindsAmbient n bound env hb)⟩

/-- A witness of `let_env`: a `Let` whose body defines a name. -/
theorem let_env_witness :
    (eval 3 (.Let ['x'] (.Int ⟨1, by decide⟩) (.Def ['y'] (.Var ['x'])))
      (.cons ['z'] .Void .nil)).2 = .cons ['z'] .Void .nil :=
  (let_env 2 ['x'] (.Int ⟨1, by decide⟩) (.Def ['y'] (.Var ['x'])) (.cons ['z'] .Void .nil)).2
    rfl

/-- Claim C9 (shadowing by the innermost `Let`).  For every environment, name
`x` and `int`s `a` and `b`, with fuel 3 or more,
`Let(x, Int(a), Let(x, Int(b), Var(x)))` returns `Int(b)` and leaves the
environment as it was; and when `x` was unbound in `env`, `Var(x)` evaluated
afterwards, in the environment the `Let` left, throws the `domain_error` of an
unbound variable. -/
theorem let_shadowing (env : Enviroment) (x : List Char) (a b : CInt) (fuel : Nat)
    (hf : 3 ≤ fuel) :
    eval fuel (.Let x (.Int a) (.Let x (.Int b) (.Var x))) env = (.value (.Int b), env) ∧
      (envlookup env x = none → ∀ m,
        eval (m + 1) (.Var x) (eval fuel (.Let x (.Int a) (.Let x (.Int b) (.Var x))) env).2
          = (.domain_error "var does not exist", env)) := by
  obtain ⟨k, rfl⟩ : ∃ k, fuel = k + 3 := ⟨fuel - 3, by omega⟩
  have h1 : eval (k + 3) (.Let x (.Int a) (.Let x (.Int b) (.Var x))) env
      = (.value (.Int b), env) := by
    simp [eval, andThen, envlookup, Enviroment.insert]
  refine ⟨h1, fun hx m => ?_⟩
  rw [h1, eval_Var]
  simp only [hx]

/-- A witness of `let_shadowing`: the example of the spec, with `x` unbound
before. -/
theorem let_shadowing_witness :
    eval 3 (.Let ['x'] (.Int ⟨1, by decide⟩) (.Let ['x'] (.Int ⟨2, by decide⟩) (.Var ['x'])))
        .nil = (.value (.Int ⟨2, by decide⟩), .nil) ∧
      eval 1 (.Var ['x'])
        (eval 3 (.Let ['x'] (.Int ⟨1, by decide⟩)
          (.Let ['x'] (.Int ⟨2, by decide⟩) (.Var ['x']))) .nil).2
        = (.domain_error "var does not exist", .nil) :=
  ⟨(let_shadowing .nil ['x'] ⟨1, by decide⟩ ⟨2, by decide⟩ 3 (by decide)).1,
    (let_shadowing .nil ['x'] ⟨1, by decide⟩ ⟨2, by decide⟩ 3 (by decide)).2 rfl 0⟩

theorem envlookup_eq_none_iff : ∀ (env : Enviroment) (n : List Char),
    envlookup env n = none ↔ n ∉ env.names
  | .nil, n => by simp [envlookup, Enviroment.names]
  | .cons name value rest, n => by
    simp only [envlookup, Enviroment.names, List.mem_cons, not_or]
    split
    · rename_i h; simp [h]
    · rename_i h
      rw [envlookup_eq_none_iff rest n]
      exact ⟨fun hh => ⟨fun e => h e.symm, hh⟩, fun hh => hh.2⟩

/-- Claim C10 (variable lookup).  For every environment `env`, name `n` and
positive fuel: `Var(n)` throws the `domain_error` of an unbound variable if and
only if no binding of `env` is named `n`, and otherwise returns a tree; the
environment is left unchanged in both cases; right after inserting `(n, v)` it
returns `v`, whatever older bindings of `n` there are; and after inserting a
binding of another name it ends as it did before the insertion. -/
theorem var_lookup (env : Enviroment) (n : List Char) (m : Nat) :
    ((eval (m + 1) (.Var n) env).1 = .domain_error "var does not exist" ↔ n ∉ env.names) ∧
      (n ∈ env.names → ∃ v, (eval (m + 1) (.Var n) env).1 = .value v) ∧
      (eval (m + 1) (.Var n) env).2 = env ∧
      (∀ v, eval (m + 1) (.Var n) (env.insert n v) = (.value v, env.insert n v)) ∧
      (∀ k v, k ≠ n →
        (eval (m + 1) (.Var n) (env.insert k v)).1 = (eval (m + 1) (.Var n) env).1) := by
  refine ⟨?_, ?_, ?_, ?_, ?_⟩
  · rw [← envlookup_eq_none_iff, eval_Var]
    cases envlookup env n <;> simp
  · intro hn
    rw [eval_Var]
    cases hl : envlookup env n with
    | none => exact absurd ((envlookup_eq_none_iff env n).1 hl) (not_not.2 hn)
    | some v => exact ⟨v, rfl⟩
  · rw [eval_Var]
    cases envlookup env n <;> rfl
  · intro v
    rw [eval_Var]
    simp [Enviroment.insert, envlookup]
  · intro k v hk
    rw [eval_Var, eval_Var]
    simp only [Enviroment.insert, envlookup, hk, if_false]
    cases envlookup env n <;> rfl

/-- A witness of `var_lookup`: a lookup of `x` behind a newer binding of
`y`. -/
theorem var_lookup_witness :
    (eval 1 (.Var ['x']) ((Enviroment.cons ['x'] .Void .nil).insert ['y']
      (.Int ⟨1, by decide⟩))).1 = (eval 1 (.Var ['x']) (.cons ['x'] .Void .nil)).1 :=
  (var_lookup (.cons ['x'] .Void .nil) ['x'] 0).2.2.2.2 ['y'] (.Int ⟨1, by decide⟩)
    (by decide)

/-! ## The evaluator, variant by variant -/

/-- Claim C11 (`Fun` makes a closure over the environment as it was).  For every
name, formal, body, environment and positive fuel, `Fun(name, formal, body)`
returns `Void` and leaves the environment with one more binding, in front:
`name` bound to `Closure(env, Fun(name, formal, body))`, where the captured
`env` is the environment before the insertion.  So the names bound afterwards
are `name` followed by those of `env`, the captured environment has one binding
less than the environment left, and `name` looks up in it as it did before. -/
theorem fun_creates_closure (m : Nat) (name formal : List Char) (body : Exp)
    (env : Enviroment) :
    eval (m + 1) (.Fun name formal body) env
        = (.value .Void, .cons name (.Closure env (.Fun name formal body)) env) ∧
      (eval (m + 1) (.Fun name formal body) env).2.names = name :: env.names ∧
      envlookup (eval (m + 1) (.Fun name formal body) env).2 name
        = some (.Closure env (.Fun name formal body)) ∧
      env.names.length + 1 = (eval (m + 1) (.Fun name formal body) env).2.names.length := by
  have h : eval (m + 1) (.Fun name formal body) env
      = (.value .Void, .cons name (.Closure env (.Fun name formal body)) env) := by
    rw [eval]; rfl
  rw [h]
  refine ⟨rfl, rfl, ?_, ?_⟩
  · simp [envlookup]
  · simp [Enviroment.names]

/-- Claim C12 (`Def` binds in the environment of the caller).  When `e`
evaluates in `env` to `v`, leaving `env1`: `Def(n, e)` returns `Void` and leaves
`env1` with `(n, v)` inserted in front; a following `Var(n)` in that
environment returns `v`; and every binding of `env1`, also an earlier one of
`n`, is kept behind the new one: the names bound are `n` followed by those of
`env1`, and every other name looks up as in `env1`. -/
theorem def_binds (m : Nat) (n : List Char) (e : Exp) (env : Enviroment) (v : Exp)
    (env1 : Enviroment) (h : eval m e env = (.value v, env1)) :
    eval (m + 1) (.Def n e) env = (.value .Void, .cons n v env1) ∧
      (∀ k, eval (k + 1) (.Var n) (.cons n v env1) = (.value v, .cons n v env1)) ∧
      (Enviroment.cons n v env1).names = n :: env1.names ∧
      (∀ x, x ≠ n → envlookup (.cons n v env1) x = envlookup env1 x) := by
  refine ⟨?_, fun k => ?_, rfl, fun x hx => ?_⟩
  · rw [eval, h]; rfl
  · rw [eval_Var]; simp [envlookup]
  · simp [envlookup, Ne.symm hx]

/-- A witness of `def_binds`: a second definition of `x`. -/
theorem def_binds_witness :
    eval 2 (.Def ['x'] (.Int ⟨2, by decide⟩)) (.cons ['x'] .Void .nil)
      = (.value .Void, .cons ['x'] (.Int ⟨2, by decide⟩) (.cons ['x'] .Void .nil)) :=
  (def_binds 1 ['x'] (.Int ⟨2, by decide⟩) (.cons ['x'] .Void .nil) (.Int ⟨2, by decide⟩)
    (.cons ['x'] .Void .nil) rfl).1

/-- Claim C13 (failures of `Call`).  With positive fuel, `Call(name, arg)` throws
the `domain_error` of an unknown function when no binding of `env` is named
`name`, and the `domain_error` of a non-closure when the first binding of
`name` is a tree that is no `Closure`; in both cases for every argument
expression, and leaving `env` as it was. -/
theorem call_failures (env : Enviroment) (name : List Char) :
    (name ∉ env.names → ∀ (arg : Exp) (m : Nat),
      eval (m + 1) (.Call name arg) env
        = (.domain_error "function name does not exist", env)) ∧
      (∀ c, envlookup env name = some c → (∀ cenv fn, c ≠ .Closure cenv fn) →
        ∀ (arg : Exp) (m : Nat),
          eval (m + 1) (.Call name arg) env
            = (.domain_error "call applied to non-closure", env)) := by
  constructor
  · intro hn arg m
    have hl := (envlookup_eq_none_iff env name).2 hn
    rw [eval]
    simp only [hl]
  · intro c hl hc arg m
    rw [eval]
    split
    · rename_i h; rw [hl] at h; cases h
    · rename_i cenv f x body h
      rw [hl] at h
      exact absurd (Option.some.inj h) (hc _ _)
    · rename_i cenv fn h
      rw [hl] at h
      exact absurd (Option.some.inj h) (hc _ _)
    · rfl

/-- A witness of `call_failures`: an unbound name, and a name bound to an
`Int`. -/
theorem call_failures_witness :
    eval 1 (.Call ['f'] (.Var ['y'])) .nil
        = (.domain_error "function name does not exist", .nil) ∧
      eval 1 (.Call ['f'] (.Var ['y'])) (.cons ['f'] (.Int ⟨3, by decide⟩) .nil)
        = (.domain_error "call applied to non-closure",
            .cons ['f'] (.Int ⟨3, by decide⟩) .nil) :=
  ⟨(call_failures .nil ['f']).1 (by simp [Enviroment.names]) (.Var ['y']) 0,
    (call_failures (.cons ['f'] (.Int ⟨3, by decide⟩) .nil) ['f']).2 (.Int ⟨3, by decide⟩) rfl
      (by intro cenv fn h; cases h) (.Var ['y']) 0⟩

theorem not_both_int {v1 v2 : Exp} (h : (∀ x, v1 ≠ .Int x) ∨ (∀ y, v2 ≠ .Int y)) :
    ∀ a b, ¬ (v1 = .Int a ∧ v2 = .Int b) := by
  intro a b hab
  rcases h with h | h
  · exact h a hab.1
  · exact h b hab.2

/-- Claim C14 (`IfGreater` takes one branch, by strict comparison).  Let `a`
evaluate in `env` to `v1`, leaving `env1`, and `b` evaluate in `env1` to `v2`,
leaving `env2`.  When the two values are `Int(x)` and `Int(y)`:
`IfGreater(a, b, t, e)` ends as `t` does in `env2` when `x > y`, whatever the
other branch is, and as `e` does in `env2` when `x ≤ y`, whatever the other
branch is.  When one of the two values is no `Int`, it throws the
`domain_error` of a non-int, whatever the two branches are. -/
theorem ifgreater_semantics (m : Nat) (a b t e : Exp) (env env1 env2 : Enviroment)
    (v1 v2 : Exp) (ha : eval m a env = (.value v1, env1))
    (hb : eval m b env1 = (.value v2, env2)) :
    (∀ x y, v1 = .Int x → v2 = .Int y →
      (x.val > y.val → ∀ e', eval (m + 1) (.IfGreater a b t e') env = eval m t env2) ∧
      (x.val ≤ y.val → ∀ t', eval (m + 1) (.IfGreater a b t' e) env = eval m e env2)) ∧
      ((∀ x, v1 ≠ .Int x) ∨ (∀ y, v2 ≠ .Int y) → ∀ t' e',
        eval (m + 1) (.IfGreater a b t' e') env
          = (.domain_error "ifgreater applied to non-int", env2)) := by
  constructor
  · intro x y hx hy
    subst hx hy
    constructor
    · intro hgt e'
      rw [eval, ha, andThen_value, hb, andThen_value]
      simp only [hgt, if_true]
    · intro hle t'
      rw [eval, ha, andThen_value, hb, andThen_value]
      simp only [gt_iff_lt, not_lt.mpr hle, if_false]
  · intro hn t' e'
    rw [eval, ha, andThen_value, hb, andThen_value]
    split
    · rename_i x y
      exact absurd ⟨rfl, rfl⟩ (not_both_int hn x y)
    · rfl

/-- A witness of `ifgreater_semantics`: the two examples of the spec, with a
branch not taken that would throw. -/
theorem ifgreater_semantics_witness :
    eval 2 (.IfGreater (.Int ⟨5, by decide⟩) (.Int ⟨3, by decide⟩) (.Int CInt.one)
        (.Var ['u'])) .nil = eval 1 (.Int CInt.one) .nil ∧
      eval 2 (.IfGreater (.Int ⟨3, by decide⟩) (.Int ⟨5, by decide⟩) (.Var ['u'])
        (.Int CInt.zero)) .nil = eval 1 (.Int CInt.zero) .nil :=
  ⟨((ifgreater_semantics 1 (.Int ⟨5, by decide⟩) (.Int ⟨3, by decide⟩) (.Int CInt.one)
      (.Int CInt.zero) .nil .nil .nil _ _ rfl rfl).1 _ _ rfl rfl).1 (by decide) (.Var ['u']),
    ((ifgreater_semantics 1 (.Int ⟨3, by decide⟩) (.Int ⟨5, by decide⟩) (.Int CInt.one)
      (.Int CInt.zero) .nil .nil .nil _ _ rfl rfl).1 _ _ rfl rfl).2 (by decide) (.Var ['u'])⟩

theorem natAbs_tmod (a b : Int) : (Int.tmod a b).natAbs = a.natAbs % b.natAbs := by
  cases a <;> cases b <;> simp [Int.tmod, Int.natAbs_neg] <;> rfl

theorem tmod_sign (a b : Int) : (0 ≤ a → 0 ≤ Int.tmod a b) ∧ (a ≤ 0 → Int.tmod a b ≤ 0) := by
  constructor
  · exact fun h => Int.tmod_nonneg b h
  · intro h
    have h1 : (Int.tmod a b).natAbs = a.natAbs % b.natAbs := natAbs_tmod a b
    cases a with
    | ofNat k =>
      have hk : k = 0 := by
        have : (k : Int) ≤ 0 := h
        omega
      subst hk
      simp
    | negSucc k =>
      cases b with
      | ofNat n => exact Int.neg_nonpos_of_nonneg (Int.ofNat_nonneg _)
      | negSucc n => exact Int.neg_nonpos_of_nonneg (Int.ofNat_nonneg _)

/-- Claim C15 (`DivMod` is truncating division with remainder).  Let `e1`
evaluate in `env` to `v1`, leaving `env1`, and `e2` evaluate in `env1` to `v2`,
leaving `env2`.  When the values are `Int(a)` and `Int(b)` with `b ≠ 0` and not
`a = INT_MIN` with `b = -1`: `DivMod(e1, e2)` returns `Pair(Int(q), Int(r))`
where `q` is `a / b` rounded toward zero and `r = a - q * b`, so that
`|r| < |b|` and `r` is zero or has the sign of `a`.  When one of the values is no
`Int`, it throws the `domain_error` of a non-int. -/
theorem divmod_semantics (m : Nat) (e1 e2 : Exp) (env env1 env2 : Enviroment) (v1 v2 : Exp)
    (h1 : eval m e1 env = (.value v1, env1)) (h2 : eval m e2 env1 = (.value v2, env2)) :
    (∀ a b : CInt, v1 = .Int a → v2 = .Int b → b.val ≠ 0 →
      ¬ (a.val = -2147483648 ∧ b.val = -1) →
      ∃ q r : CInt, eval (m + 1) (.DivMod e1 e2) env = (.value (.Pair (.Int q) (.Int r)), env2) ∧
        q.val = Int.tdiv a.val b.val ∧ r.val = a.val - q.val * b.val ∧
        |r.val| < |b.val| ∧ (r.val = 0 ∨ Int.sign r.val = Int.sign a.val)) ∧
      ((∀ x, v1 ≠ .Int x) ∨ (∀ y, v2 ≠ .Int y) →
        eval (m + 1) (.DivMod e1 e2) env
          = (.domain_error "divmod applied to non-int", env2)) := by
  constructor
  · intro a b hv1 hv2 hb hov
    subst hv1 hv2
    have ha := a.inRange
    have hbr := b.inRange
    have hqabs : (Int.tdiv a.val b.val).natAbs = a.val.natAbs / b.val.natAbs :=
      Int.natAbs_tdiv a.val b.val
    have hrabs := natAbs_tmod a.val b.val
    have hsgn := tmod_sign a.val b.val
    have hdef := Int.tmod_def a.val b.val
    have hbpos : 0 < b.val.natAbs := Int.natAbs_pos.mpr hb
    have hrlt : (Int.tmod a.val b.val).natAbs < b.val.natAbs := by
      rw [hrabs]; exact Nat.mod_lt _ hbpos
    have hqle : (Int.tdiv a.val b.val).natAbs ≤ a.val.natAbs := by
      rw [hqabs]; exact Nat.div_le_self _ _
    have hq : -2147483648 ≤ Int.tdiv a.val b.val ∧ Int.tdiv a.val b.val ≤ 2147483647 := by
      constructor
      · omega
      · by_contra hcon
        have h3 : (Int.tdiv a.val b.val).natAbs = 2147483648 := by omega
        have h4 : a.val.natAbs = 2147483648 := by omega
        have h5 : a.val = -2147483648 := by omega
        rw [h4] at hqabs
        have h6 : b.val.natAbs = 1 := by
          by_contra h7
          have h8 : 2 ≤ b.val.natAbs := by omega
          have h9 : 2147483648 / b.val.natAbs ≤ 2147483648 / 2 :=
            Nat.div_le_div_left h8 (by norm_num)
          omega
        have h10 : b.val = 1 := by omega
        rw [h5, h10] at hcon
        exact hcon (by decide)
    have hr : -2147483648 ≤ Int.tmod a.val b.val ∧ Int.tmod a.val b.val ≤ 2147483647 := by
      constructor <;> omega
    refine ⟨⟨_, hq⟩, ⟨_, hr⟩, ?_, rfl, ?_, ?_, ?_⟩
    · rw [eval, h1, andThen_value, h2, andThen_value]
      simp only [divmodResult, hb, if_false, CInt.ofInt?, dif_pos hq, dif_pos hr]
    · simp only [hdef]; ring
    · rw [Int.abs_eq_natAbs, Int.abs_eq_natAbs]
      exact_mod_cast hrlt
    · simp only
      rcases le_or_lt 0 a.val with hnn | hneg
      · have := hsgn.1 hnn
        rcases eq_or_lt_of_le this with h0 | hpos
        · exact Or.inl h0.symm
        · right
          have hapos : 0 < a.val := by
            by_contra hcon
            have : a.val = 0 := by omega
            rw [this] at hpos
            simp at hpos
          rw [Int.sign_eq_one_of_pos hpos, Int.sign_eq_one_of_pos hapos]
      · have := hsgn.2 hneg.le
        rcases eq_or_lt_of_le this with h0 | hlt
        · exact Or.inl h0
        · right
          rw [Int.sign_eq_neg_one_of_neg hlt, Int.sign_eq_neg_one_of_neg hneg]
  · intro hn
    rw [eval, h1, andThen_value, h2, andThen_value]
    split
    · rename_i x y
      exact absurd ⟨rfl, rfl⟩ (not_both_int hn x y)
    · rfl

/-- A witness of `divmod_semantics`: the example of the spec, 7 by 2. -/
theorem divmod_semantics_witness :
    (∃ q r : CInt,
      eval 2 (.DivMod (.Int ⟨7, by decide⟩) (.Int ⟨2, by decide⟩)) .nil
          = (.value (.Pair (.Int q) (.Int r)), .nil) ∧
        q.val = Int.tdiv 7 2 ∧ r.val = 7 - q.val * 2 ∧ |r.val| < |(2 : Int)| ∧
        (r.val = 0 ∨ Int.sign r.val = Int.sign 7)) ∧
      eval 2 (.DivMod (.Int ⟨7, by decide⟩) (.Int ⟨2, by decide⟩)) .nil
        = (.value (.Pair (.Int ⟨3, by decide⟩) (.Int ⟨1, by decide⟩)), .nil) :=
  ⟨(divmod_semantics 1 (.Int ⟨7, by decide⟩) (.Int ⟨2, by decide⟩) .nil .nil .nil _ _ rfl
      rfl).1 ⟨7, by decide⟩ ⟨2, by decide⟩ rfl rfl (by decide) (by decide), by decide⟩

/-- Claim C16 (`Add` and `Mul` on integers).  Let `e1` evaluate in `env` to
`v1`, leaving `env1`, and `e2` evaluate in `env1` to `v2`, leaving `env2`.  When
the values are `Int(a)` and `Int(b)`, `Add(e1, e2)` returns `Int(a + b)` if the
sum is representable as an `int`, and `Mul(e1, e2)` returns `Int(a * b)` if the
product is.  When one of the values is no `Int`, both throw their
`domain_error` of a non-int. -/
theorem add_mul_semantics (m : Nat) (e1 e2 : Exp) (env env1 env2 : Enviroment) (v1 v2 : Exp)
    (h1 : eval m e1 env = (.value v1, env1)) (h2 : eval m e2 env1 = (.value v2, env2)) :
    (∀ a b : CInt, v1 = .Int a → v2 = .Int b →
      (∀ h : -2147483648 ≤ a.val + b.val ∧ a.val + b.val ≤ 2147483647,
        eval (m + 1) (.Add e1 e2) env = (.value (.Int ⟨a.val + b.val, h⟩), env2)) ∧
      (∀ h : -2147483648 ≤ a.val * b.val ∧ a.val * b.val ≤ 2147483647,
        eval (m + 1) (.Mul e1 e2) env = (.value (.Int ⟨a.val * b.val, h⟩), env2))) ∧
      ((∀ x, v1 ≠ .Int x) ∨ (∀ y, v2 ≠ .Int y) →
        eval (m + 1) (.Add e1 e2) env = (.domain_error "add applied to non-int", env2) ∧
        eval (m + 1) (.Mul e1 e2) env = (.domain_error "mul applied to non-int", env2)) := by
  constructor
  · intro a b hv1 hv2
    subst hv1 hv2
    constructor
    · intro h
      rw [eval, h1, andThen_value, h2, andThen_value]
      simp only [intResult, CInt.ofInt?, dif_pos h]
    · intro h
      rw [eval, h1, andThen_value, h2, andThen_value]
      simp only [intResult, CInt.ofInt?, dif_pos h]
  · intro hn
    constructor
    · rw [eval, h1, andThen_value, h2, andThen_value]
      split
      · rename_i x y
        exact absurd ⟨rfl, rfl⟩ (not_both_int hn x y)
      · rfl
    · rw [eval, h1, andThen_value, h2, andThen_value]
      split
      · rename_i x y
        exact absurd ⟨rfl, rfl⟩ (not_both_int hn x y)
      · rfl

/-- A witness of `add_mul_semantics`: the examples of the spec, 3 and 4. -/
theorem add_mul_semantics_witness :
    eval 2 (.Add (.Int ⟨3, by decide⟩) (.Int ⟨4, by decide⟩)) .nil
        = (.value (.Int ⟨7, by decide⟩), .nil) ∧
      eval 2 (.Mul (.Int ⟨3, by decide⟩) (.Int ⟨4, by decide⟩)) .nil
        = (.value (.Int ⟨12, by decide⟩), .nil) :=
  ⟨((add_mul_semantics 1 (.Int ⟨3, by decide⟩) (.Int ⟨4, by decide⟩) .nil .nil .nil _ _ rfl
      rfl).1 ⟨3, by decide⟩ ⟨4, by decide⟩ rfl rfl).1 (by decide),
    ((add_mul_semantics 1 (.Int ⟨3, by decide⟩) (.Int ⟨4, by decide⟩) .nil .nil .nil _ _ rfl
      rfl).1 ⟨3, by decide⟩ ⟨4, by decide⟩ rfl rfl).2 (by decide)⟩

/-- Claim C17 (pair projections).  Let `e` evaluate in `env` to `v`, leaving
`env1`.  When `v` is `Pair(p, q)`, `Fst(e)` returns `p` and `Snd(e)` returns
`q`; `Fst(e)` and `Snd(e)` throw their `domain_error` of a non-pair if and only
if `v` is no `Pair`.  And when `e1` evaluates in `env` to `w1`, leaving `env1`,
and `e2` evaluates in `env1` to `w2`, leaving `env2`, then `Fst(Pair(e1, e2))`
returns `w1` and `Snd(Pair(e1, e2))` returns `w2`. -/
theorem fst_snd_semantics (m : Nat) (env env1 : Enviroment) :
    (∀ e v, eval m e env = (.value v, env1) →
      (∀ p q, v = .Pair p q →
        eval (m + 1) (.Fst e) env = (.value p, env1) ∧
        eval (m + 1) (.Snd e) env = (.value q, env1)) ∧
      ((∀ p q, v ≠ .Pair p q) ↔
        eval (m + 1) (.Fst e) env = (.domain_error "fst applied to non-pair", env1)) ∧
      ((∀ p q, v ≠ .Pair p q) ↔
        eval (m + 1) (.Snd e) env = (.domain_error "snd applied to non-pair", env1))) ∧
      (∀ e1 e2 w1 w2 env2, eval m e1 env = (.value w1, env1) →
        eval m e2 env1 = (.value w2, env2) →
        eval (m + 2) (.Fst (.Pair e1 e2)) env = (.value w1, env2) ∧
        eval (m + 2) (.Snd (.Pair e1 e2)) env = (.value w2, env2)) := by
  constructor
  · intro e v h
    refine ⟨?_, ?_, ?_⟩
    · intro p q hv
      subst hv
      constructor
      · rw [eval, h, andThen_value]
      · rw [eval, h, andThen_value]
    · rw [eval, h, andThen_value]
      constructor
      · intro hn
        split
        · rename_i p q
          exact absurd rfl (hn p q)
        · rfl
      · intro hh p q hv
        subst hv
        simp at hh
    · rw [eval, h, andThen_value]
      constructor
      · intro hn
        split
        · rename_i p q
          exact absurd rfl (hn p q)
        · rfl
      · intro hh p q hv
        subst hv
        simp at hh
  · intro e1 e2 w1 w2 env2 h1 h2
    have hp : eval (m + 1) (.Pair e1 e2) env = (.value (.Pair w1 w2), env2) := by
      rw [eval, h1, andThen_value, h2, andThen_value]
    constructor
    · rw [eval, hp, andThen_value]
    · rw [eval, hp, andThen_value]

/-- A witness of `fst_snd_semantics`: `Fst` of the `Int` 3, the example of the
spec, and the projections of a pair. -/
theorem fst_snd_semantics_witness :
    eval 2 (.Fst (.Int ⟨3, by decide⟩)) .nil
        = (.domain_error "fst applied to non-pair", .nil) ∧
      eval 3 (.Snd (.Pair .Void (.Int ⟨3, by decide⟩))) .nil
        = (.value (.Int ⟨3, by decide⟩), .nil) :=
  ⟨(((fst_snd_semantics 1 .nil .nil).1 (.Int ⟨3, by decide⟩) (.Int ⟨3, by decide⟩) rfl).2.1).1
      (by intro p q h; cases h),
    ((fst_snd_semantics 1 .nil .nil).2 .Void (.Int ⟨3, by decide⟩) .Void (.Int ⟨3, by decide⟩)
      .nil rfl rfl).2⟩

theorem eval_valueTree : ∀ (fuel : Nat) (v : Exp), valueTree v → depth v ≤ fuel →
    ∀ env, eval fuel v env = (.value v, env) := by
  intro fuel
  induction fuel with
  | zero => intro v _ hd; cases v <;> simp [depth] at hd
  | succ n ih =>
    intro v hv hd env
    cases v with
    | Void => rw [eval]
    | Int c => rw [eval]
    | Pair e1 e2 =>
      simp only [valueTree] at hv
      simp only [depth] at hd
      rw [eval, ih e1 hv.1 (by omega) env, andThen_value, ih e2 hv.2 (by omega) env,
        andThen_value]
    | Closure cenv fn => rw [eval]
    | IsVoid e => simp [valueTree] at hv
    | Fst e => simp [valueTree] at hv
    | Snd e => simp [valueTree] at hv
    | Neg e => simp [valueTree] at hv
    | Def x e => simp [valueTree] at hv
    | Var x => simp [valueTree] at hv
    | Add e1 e2 => simp [valueTree] at hv
    | Mul e1 e2 => simp [valueTree] at hv
    | DivMod e1 e2 => simp [valueTree] at hv
    | Let x e body => simp [valueTree] at hv
    | IfGreater e1 e2 e3 e4 => simp [valueTree] at hv
    | Fun name formal body => simp [valueTree] at hv
    | Call fname actual => simp [valueTree] at hv

theorem valueTree_of_isValue : ∀ (v : Exp), isValue v → valueTree v
  | .Void, _ => trivial
  | .Int _, _ => trivial
  | .Pair e1 e2, h => by
    simp only [isValue] at h
    exact ⟨valueTree_of_isValue e1 h.1, valueTree_of_isValue e2 h.2⟩
  | .Closure _ _, _ => trivial
  | .IsVoid _, h => by simp [isValue] at h
  | .Fst _, h => by simp [isValue] at h
  | .Snd _, h => by simp [isValue] at h
  | .Neg _, h => by simp [isValue] at h
  | .Def _ _, h => by simp [isValue] at h
  | .Var _, h => by simp [isValue] at h
  | .Add _ _, h => by simp [isValue] at h
  | .Mul _ _, h => by simp [isValue] at h
  | .DivMod _ _, h => by simp [isValue] at h
  | .Let _ _ _, h => by simp [isValue] at h
  | .IfGreater _ _ _ _, h => by simp [isValue] at h
  | .Fun _ _ _, h => by simp [isValue] at h
  | .Call _ _, h => by simp [isValue] at h

/-- Claim C18 (values are fixed points of `eval`).  For every tree `v` that is
`Void`, an `Int`, a `Pair` of two such trees or a `Closure` (whatever it
captures), every environment and every fuel that covers the nesting depth of
`v`: `eval` returns `v` itself and leaves the environment as it was.  The
values whose closures capture only values are such trees. -/
theorem values_self_evaluate (v : Exp) (env : Enviroment) (fuel : Nat) :
    (valueTree v → depth v ≤ fuel → eval fuel v env = (.value v, env)) ∧
      (isValue v → depth v ≤ fuel → eval fuel v env = (.value v, env)) :=
  ⟨fun hv hd => eval_valueTree fuel v hv hd env,
    fun hv hd => eval_valueTree fuel v (valueTree_of_isValue v hv) hd env⟩

/-- A witness of `values_self_evaluate`: a pair of a closure and an `Int`. -/
theorem values_self_evaluate_witness :
    eval 2 (.Pair (.Closure (.cons ['y'] .Void .nil) (.Fun ['f'] ['x'] (.Var ['y'])))
        (.Int ⟨-4, by decide⟩)) (.cons ['z'] .Void .nil)
      = (.value (.Pair (.Closure (.cons ['y'] .Void .nil) (.Fun ['f'] ['x'] (.Var ['y'])))
          (.Int ⟨-4, by decide⟩)), .cons ['z'] .Void .nil) :=
  (values_self_evaluate _ _ 2).1 (by simp [valueTree]) (by decide)

/-! ## The names the parser stores, and the empty text -/

theorem firstIndex_some (c : Char) : ∀ (l : List Char) (i : Nat), firstIndex c l = some i →
    ∃ r, l.drop i = c :: r ∧ c ∉ l.take i
  | [], i, h => by simp [firstIndex] at h
  | d :: ds, i, h => by
    simp only [firstIndex] at h
    split at h
    · rename_i hd
      cases h
      exact ⟨ds, by simp [hd], by simp⟩
    · rename_i hd
      cases hf : firstIndex c ds with
      | none => simp [hf] at h
      | some j =>
        simp only [hf, Option.map_some', Option.some.injEq] at h
        subst h
        obtain ⟨r, h1, h2⟩ := firstIndex_some c ds j hf
        refine ⟨r, by simpa using h1, ?_⟩
        simp only [List.take_succ_cons, List.mem_cons, not_or]
        exact ⟨fun hh => hd hh.symm, h2⟩

theorem find_first_of_some {p : List Char} {c : Char} {b j : Nat}
    (h : find_first_of p c (some b) = some j) :
    b ≤ j ∧ (∃ r, p.drop j = c :: r) ∧ c ∉ substr p b (size_sub (some j) b) := by
  simp only [find_first_of] at h
  cases hf : firstIndex c (p.drop b) with
  | none => simp [hf] at h
  | some i =>
    simp only [hf, Option.map_some', Option.some.injEq] at h
    subst h
    obtain ⟨r, h1, h2⟩ := firstIndex_some c _ i hf
    refine ⟨by omega, ⟨r, ?_⟩, ?_⟩
    · rw [List.drop_drop] at h1
      rw [← h1]; congr 1; omega
    · have : size_sub (some (i + b)) b = some i := by simp [size_sub]
      rw [this]
      exact h2

theorem expect_eq_tree {p : List Char} {i : Option Nat} {c : Char} {k : ParseResult}
    {e : Exp} {pos : Nat} (h : expect p i c k = .tree e pos) :
    (∃ j, i = some j) ∧ k = .tree e pos := by
  unfold expect at h
  cases i with
  | none => simp [charAt] at h
  | some j =>
    refine ⟨⟨j, rfl⟩, ?_⟩
    split at h
    · cases h
    · split at h
      · cases h
      · exact h

theorem parse_andThen_eq_tree {r : ParseResult} {k : Exp → Nat → ParseResult} {e : Exp}
    {pos : Nat} (h : r.andThen k = .tree e pos) :
    ∃ e1 p1, r = .tree e1 p1 ∧ k e1 p1 = .tree e pos := by
  cases r with
  | tree e1 p1 => exact ⟨e1, p1, rfl, h⟩
  | null => cases h
  | out_of_range => cases h
  | undefined => cases h
  | out_of_fuel => cases h

theorem var_name_scanned {p : List Char} {pos k j : Nat}
    (h1 : find_first_of p ',' (some pos) = some k)
    (h2 : find_first_of p '>' (some k) = some j) :
    '>' ∉ substr p (k + 1) (size_sub (some j) (k + 1)) := by
  obtain ⟨-, ⟨r, hr⟩, -⟩ := find_first_of_some h1
  obtain ⟨hkj, ⟨r2, hr2⟩, hn⟩ := find_first_of_some h2
  have hne : j ≠ k := by
    rintro rfl
    rw [hr] at hr2
    cases hr2
  have hs1 : size_sub (some j) k = some (j - k) := by simp [size_sub, hkj]
  have hs2 : size_sub (some j) (k + 1) = some (j - (k + 1)) := by
    have : k + 1 ≤ j := by omega
    simp [size_sub, this]
  rw [hs1] at hn
  rw [hs2]
  simp only [substr] at hn ⊢
  obtain ⟨i, hi⟩ : ∃ i, j - k = i + 1 := ⟨j - k - 1, by omega⟩
  have hi2 : j - (k + 1) = i := by omega
  rw [hr, hi, List.take_succ_cons] at hn
  rw [hi2, drop_succ_of_drop hr]
  exact fun hm => hn (List.mem_cons_of_mem _ hm)

theorem parseAt_namesScanned : ∀ (fuel : Nat) (p : List Char) (pos : Nat) (e : Exp) (pos' : Nat),
    parseAt fuel p pos = .tree e pos' → namesScanned e := by
  intro fuel
  induction fuel with
  | zero => intro p pos e pos' h; cases h
  | succ n ih =>
    intro p pos e pos' h
    rw [parseAt] at h
    by_cases c1 : pos ≥ p.length
    · rw [if_pos c1] at h; cases h
    rw [if_neg c1] at h
    by_cases c2 : p.getD pos (Char.ofNat 0) ≠ '<'
    · rw [if_pos c2] at h; cases h
    rw [if_neg c2] at h
    by_cases c3 : substr p (pos + 1) (some 4) = "void".toList
    · rw [if_pos c3] at h; cases h; trivial
    rw [if_neg c3] at h
    dsimp only at h
    generalize hen : find_first_of p ',' (some pos) = end_name at h
    generalize substr p (pos + 1) (size_sub end_name (pos + 1)) = name at h
    by_cases t1 : name = "int".toList
    · rw [if_pos t1] at h
      obtain ⟨-, hk⟩ := expect_eq_tree h
      split at hk
      · cases hk
      · split at hk
        · cases hk
        · cases hk; trivial
    rw [if_neg t1] at h
    by_cases t2 : name = "pair".toList
    · rw [if_pos t2] at h
      obtain ⟨e1, p1, h1, h2⟩ := parse_andThen_eq_tree h
      obtain ⟨-, h3⟩ := expect_eq_tree h2
      obtain ⟨e2, p2, h4, h5⟩ := parse_andThen_eq_tree h3
      obtain ⟨-, h6⟩ := expect_eq_tree h5
      cases h6
      exact ⟨ih _ _ _ _ h1, ih _ _ _ _ h4⟩
    rw [if_neg t2] at h
    by_cases t3 : name = "fst".toList
    · rw [if_pos t3] at h
      obtain ⟨e1, p1, h1, h2⟩ := parse_andThen_eq_tree h
      obtain ⟨-, h3⟩ := expect_eq_tree h2
      cases h3
      simp only [namesScanned]
      exact ih _ _ _ _ h1
    rw [if_neg t3] at h
    by_cases t4 : name = "snd".toList
    · rw [if_pos t4] at h
      obtain ⟨e1, p1, h1, h2⟩ := parse_andThen_eq_tree h
      obtain ⟨-, h3⟩ := expect_eq_tree h2
      cases h3
      simp only [namesScanned]
      exact ih _ _ _ _ h1
    rw [if_neg t4] at h
    by_cases t5 : name = "def".toList
    · rw [if_pos t5] at h
      obtain ⟨⟨j, hj⟩, hk⟩ := expect_eq_tree h
      obtain ⟨e1, p1, h1, h2⟩ := parse_andThen_eq_tree hk
      obtain ⟨-, h3⟩ := expect_eq_tree h2
      cases h3
      simp only [namesScanned, hj]
      exact ⟨(find_first_of_some hj).2.2, ih _ _ _ _ h1⟩
    rw [if_neg t5] at h
    by_cases t6 : name = "var".toList
    · rw [if_pos t6] at h
      obtain ⟨⟨j, hj⟩, hk⟩ := expect_eq_tree h
      cases end_name with
      | none => simp [find_first_of] at hj
      | some k =>
        cases hk
        simp only [namesScanned, plus_one, hj]
        exact var_name_scanned hen hj
    rw [if_neg t6] at h
    by_cases t7 : name = "isvoid".toList
    · rw [if_pos t7] at h
      obtain ⟨e1, p1, h1, h2⟩ := parse_andThen_eq_tree h
      obtain ⟨-, h3⟩ := expect_eq_tree h2
      cases h3
      simp only [namesScanned]
      exact ih _ _ _ _ h1
    rw [if_neg t7] at h
    by_cases t8 : name = "neg".toList
    · rw [if_pos t8] at h
      obtain ⟨e1, p1, h1, h2⟩ := parse_andThen_eq_tree h
      obtain ⟨-, h3⟩ := expect_eq_tree h2
      cases h3
      simp only [namesScanned]
      exact ih _ _ _ _ h1
    rw [if_neg t8] at h
    by_cases t9 : name = "add".toList
    · rw [if_pos t9] at h
      obtain ⟨e1, p1, h1, h2⟩ := parse_andThen_eq_tree h
      obtain ⟨-, h3⟩ := expect_eq_tree h2
      obtain ⟨e2, p2, h4, h5⟩ := parse_andThen_eq_tree h3
      obtain ⟨-, h6⟩ := expect_eq_tree h5
      cases h6
      exact ⟨ih _ _ _ _ h1, ih _ _ _ _ h4⟩
    rw [if_neg t9] at h
    by_cases t10 : name = "mul".toList
    · rw [if_pos t10] at h
      obtain ⟨e1, p1, h1, h2⟩ := parse_andThen_eq_tree h
      obtain ⟨-, h3⟩ := expect_eq_tree h2
      obtain ⟨e2, p2, h4, h5⟩ := parse_andThen_eq_tree h3
      obtain ⟨-, h6⟩ := expect_eq_tree h5
      cases h6
      exact ⟨ih _ _ _ _ h1, ih _ _ _ _ h4⟩
    rw [if_neg t10] at h
    by_cases t11 : name = "divmod".toList
    · rw [if_pos t11] at h
      obtain ⟨e1, p1, h1, h2⟩ := parse_andThen_eq_tree h
      obtain ⟨-, h3⟩ := expect_eq_tree h2
      obtain ⟨e2, p2, h4, h5⟩ := parse_andThen_eq_tree h3
      obtain ⟨-, h6⟩ := expect_eq_tree h5
      cases h6
      exact ⟨ih _ _ _ _ h1, ih _ _ _ _ h4⟩
    rw [if_neg t11] at h
    by_cases t12 : name = "let".toList
    · rw [if_pos t12] at h
      obtain ⟨⟨j, hj⟩, hk⟩ := expect_eq_tree h
      obtain ⟨e1, p1, h1, h2⟩ := parse_andThen_eq_tree hk
      obtain ⟨-, h3⟩ := expect_eq_tree h2
      obtain ⟨e2, p2, h4, h5⟩ := parse_andThen_eq_tree h3
      obtain ⟨-, h6⟩ := expect_eq_tree h5
      cases h6
      simp only [namesScanned, hj]
      exact ⟨(find_first_of_some hj).2.2, ih _ _ _ _ h1, ih _ _ _ _ h4⟩
    rw [if_neg t12] at h
    by_cases t13 : name = "ifgreater".toList
    · rw [if_pos t13] at h
      obtain ⟨e1, p1, h1, h2⟩ := parse_andThen_eq_tree h
      obtain ⟨-, h3⟩ := expect_eq_tree h2
      obtain ⟨e2, p2, h4, h5⟩ := parse_andThen_eq_tree h3
      obtain ⟨-, h6⟩ := expect_eq_tree h5
      obtain ⟨e3, p3, h7, h8⟩ := parse_andThen_eq_tree h6
      obtain ⟨-, h9⟩ := expect_eq_tree h8
      obtain ⟨e4, p4, h10, h11⟩ := parse_andThen_eq_tree h9
      obtain ⟨-, h12⟩ := expect_eq_tree h11
      cases h12
      exact ⟨ih _ _ _ _ h1, ih _ _ _ _ h4, ih _ _ _ _ h7, ih _ _ _ _ h10⟩
    rw [if_neg t13] at h
    by_cases t14 : name = "fun".toList
    · rw [if_pos t14] at h
      obtain ⟨⟨j, hj⟩, hk⟩ := expect_eq_tree h
      obtain ⟨⟨j2, hj2⟩, hk2⟩ := expect_eq_tree hk
      obtain ⟨e1, p1, h1, h2⟩ := parse_andThen_eq_tree hk2
      obtain ⟨-, h3⟩ := expect_eq_tree h2
      cases h3
      simp only [hj] at hj2
      simp only [namesScanned, hj, hj2]
      exact ⟨(find_first_of_some hj).2.2, (find_first_of_some hj2).2.2, ih _ _ _ _ h1⟩
    rw [if_neg t14] at h
    by_cases t15 : name = "call".toList
    · rw [if_pos t15] at h
      obtain ⟨⟨j, hj⟩, hk⟩ := expect_eq_tree h
      obtain ⟨e1, p1, h1, h2⟩ := parse_andThen_eq_tree hk
      obtain ⟨-, h3⟩ := expect_eq_tree h2
      cases h3
      simp only [namesScanned, hj]
      exact ⟨(find_first_of_some hj).2.2, ih _ _ _ _ h1⟩
    rw [if_neg t15] at h
    cases h

/-- Claim C19, as stated, fails: `<var,a,b>` parses to a `Var` whose name
`a,b` holds a `,`, and `<def,a>b,<void>>` parses to a `Def` whose name `a>b`
holds a `>`. -/
theorem parse_names_counterexample :
    parse 1 "<var,a,b>".toList = .tree (.Var ['a', ',', 'b']) ∧
      ['a', ',', 'b'] ∈ storedNames (.Var ['a', ',', 'b']) ∧ ',' ∈ ['a', ',', 'b'] ∧
      parse 2 "<def,a>b,<void>>".toList = .tree (.Def ['a', '>', 'b'] .Void) ∧
      ['a', '>', 'b'] ∈ storedNames (.Def ['a', '>', 'b'] .Void) ∧ '>' ∈ ['a', '>', 'b'] := by
  decide

/-- Claim C19, amended.  Each name holds no occurrence of the delimiter its
production scans for: for every text on which `parse` returns a tree, and for
every tree the cursor form returns, the name of each `Var` contains no `>` and
the names of each `Def`, `Let`, `Fun` and `Call` contain no `,` (and the tree
has no `Closure` node). -/
theorem parse_names_scanned (fuel : Nat) (e : Exp) :
    (∀ text, parse fuel text = .tree e → namesScanned e) ∧
      (∀ p pos pos', parseAt fuel p pos = .tree e pos' → namesScanned e) := by
  refine ⟨fun text h => ?_, fun p pos pos' h => parseAt_namesScanned fuel p pos e pos' h⟩
  unfold parse at h
  split at h
  · cases h
  · split at h
    · rename_i ret pos' hp
      cases h
      exact parseAt_namesScanned fuel _ 0 _ pos' hp
    · cases h
    · cases h
    · cases h
    · cases h

/-- A witness of `parse_names_scanned`: the name `a,b` of the `Var` parsed from
`<var,a,b>` holds no `>`. -/
theorem parse_names_scanned_witness : namesScanned (.Var ['a', ',', 'b']) :=
  (parse_names_scanned 1 (.Var ['a', ',', 'b'])).1 "<var,a,b>".toList (by decide)

/-- Claim C20, as stated, fails: on the empty text the entry point returns
`nullptr` to the caller and throws nothing, while on a text of one space it
throws the `logic_error`. -/
theorem parse_empty_counterexample :
    parse 1 [] = .nullptr ∧ parse 1 [] ≠ .logic_error "bad formed expression" ∧
      parse 1 " ".toList = .logic_error "bad formed expression" := by
  decide

/-- Claim C20, amended.  On the empty text, and on no other, the entry point
returns `nullptr` without throwing.  On a non-empty text it ends as the
recursive descent on the stripped text does: it returns the tree when the
descent returns one, it throws the `logic_error` of a badly formed expression
exactly when the descent returns `nullptr` (as on every non-empty text made
only of whitespace), and when the descent ends another way the entry point
ends that way too, without that `logic_error`: with the `out_of_range` that
`stoi` throws on an integer literal outside the `int` range, as on
`<int,2147483648>`, in undefined behaviour, or never, as on `<pair`. -/
theorem parse_empty (fuel : Nat) (text : List Char) :
    (parse fuel text = .nullptr ↔ text = []) ∧
      (text ≠ [] →
        (parse fuel text = .logic_error "bad formed expression"
          ↔ parseAt fuel (remove_whites text) 0 = .null) ∧
        (∀ e, parse fuel text = .tree e
          ↔ ∃ pos, parseAt fuel (remove_whites text) 0 = .tree e pos) ∧
        (parse fuel text = .out_of_range
          ↔ parseAt fuel (remove_whites text) 0 = .out_of_range) ∧
        (parse fuel text = .undefined ↔ parseAt fuel (remove_whites text) 0 = .undefined) ∧
        (parse fuel text = .out_of_fuel
          ↔ parseAt fuel (remove_whites text) 0 = .out_of_fuel)) ∧
      (text ≠ [] → (∀ c ∈ text, isspace c = true) →
        parse (fuel + 1) text = .logic_error "bad formed expression") ∧
      (∀ w, parse fuel text = .logic_error w → w = "bad formed expression") ∧
      parse 1 "<int,2147483648>".toList = .out_of_range ∧
      parse fuel "<pair".toList = .out_of_fuel := by
  have hne : text ≠ [] → text.isEmpty = false := by
    intro h; cases text with
    | nil => exact absurd rfl h
    | cons c cs => rfl
  have hp : text ≠ [] → parse fuel text
      = match parseAt fuel (remove_whites text) 0 with
        | .tree ret _ => .tree ret
        | .null => .logic_error "bad formed expression"
        | .out_of_range => .out_of_range
        | .undefined => .undefined
        | .out_of_fuel => .out_of_fuel := by
    intro h
    unfold parse
    rw [hne h]
    simp only [Bool.false_eq_true, if_false]
  refine ⟨⟨fun h => ?_, fun h => ?_⟩, fun h1 => ?_, fun h1 h2 => ?_, fun w h => ?_, by decide,
    ?_⟩
  · by_contra hcon
    rw [hp hcon] at h
    split at h <;> cases h
  · subst h; rfl
  · rw [hp h1]
    cases parseAt fuel (remove_whites text) 0 <;> simp
  · have hw : remove_whites text = [] := by
      simp only [remove_whites, List.filter_eq_nil_iff]
      intro c hc
      simp [h2 c hc]
    unfold parse
    rw [hne h1, hw, parseAt]
    simp
  · unfold parse at h
    split at h
    · cases h
    · split at h <;> cases h
      rfl
  · unfold parse
    rw [show remove_whites "<pair".toList = "<pair".toList by decide, parseAt_pair_loops]
    rfl

/-- A witness of `parse_empty`: a text of a space and a tab. -/
theorem parse_empty_witness :
    parse 1 [' ', Char.ofNat 9] = .logic_error "bad formed expression" :=
  (parse_empty 0 [' ', Char.ofNat 9]).2.2.1 (by decide) (by decide)

/-! ## The allocations of the parser -/

theorem childLive_fst (r : ParseResult × Nat) (held rel : Nat) (deletes destroys : Bool)
    (k : Exp → Nat → Nat → Nat → ParseResult × Nat) :
    (childLive r held rel deletes destroys k).1
      = r.1.andThen fun e pos =>
          (k e pos (held + r.2) (if destroys then rel + released e else rel)).1 := by
  obtain ⟨o, live⟩ := r
  cases o <;> rfl

theorem expectLive_fst (p : List Char) (i : Option Nat) (c : Char) (held rel : Nat)
    (k : ParseResult × Nat) : (expectLive p i c held rel k).1 = expect p i c k.1 := by
  unfold expectLive expect
  cases charAt p i with
  | none => rfl
  | some d => by_cases h : d ≠ c <;> simp [h]

theorem parseAtLive_fst : ∀ (fuel : Nat) (p : List Char) (pos : Nat),
    (parseAtLive fuel p pos).1 = parseAt fuel p pos := by
  intro fuel
  induction fuel with
  | zero => intro p pos; rfl
  | succ n ih =>
    intro p pos
    rw [parseAt, parseAtLive]
    by_cases c1 : pos ≥ p.length
    · rw [if_pos c1, if_pos c1]
    rw [if_neg c1, if_neg c1]
    by_cases c2 : p.getD pos (Char.ofNat 0) ≠ '<'
    · rw [if_pos c2, if_pos c2]
    rw [if_neg c2, if_neg c2]
    by_cases c3 : substr p (pos + 1) (some 4) = "void".toList
    · rw [if_pos c3, if_pos c3]
    rw [if_neg c3, if_neg c3]
    dsimp only
    generalize find_first_of p ',' (some pos) = end_name
    generalize substr p (pos + 1) (size_sub end_name (pos + 1)) = name
    by_cases t0 : name = "int".toList
    · rw [if_pos t0, if_pos t0]
      simp only [expectLive_fst, ih]
      congr 1
      split
      · rfl
      · split <;> rfl
    rw [if_neg t0, if_neg t0]
    by_cases t1 : name = "pair".toList
    · rw [if_pos t1, if_pos t1]
      simp only [childLive_fst, expectLive_fst, ih]
    rw [if_neg t1, if_neg t1]
    by_cases t2 : name = "fst".toList
    · rw [if_pos t2, if_pos t2]
      simp only [childLive_fst, expectLive_fst, ih]
    rw [if_neg t2, if_neg t2]
    by_cases t3 : name = "snd".toList
    · rw [if_pos t3, if_pos t3]
      simp only [childLive_fst, expectLive_fst, ih]
    rw [if_neg t3, if_neg t3]
    by_cases t4 : name = "def".toList
    · rw [if_pos t4, if_pos t4]
      simp only [childLive_fst, expectLive_fst, ih]
    rw [if_neg t4, if_neg t4]
    by_cases t5 : name = "var".toList
    · rw [if_pos t5, if_pos t5]
      simp only [childLive_fst, expectLive_fst, ih]
    rw [if_neg t5, if_neg t5]
    by_cases t6 : name = "isvoid".toList
    · rw [if_pos t6, if_pos t6]
      simp only [childLive_fst, expectLive_fst, ih]
    rw [if_neg t6, if_neg t6]
    by_cases t7 : name = "neg".toList
    · rw [if_pos t7, if_pos t7]
      simp only [childLive_fst, expectLive_fst, ih]
    rw [if_neg t7, if_neg t7]
    by_cases t8 : name = "add".toList
    · rw [if_pos t8, if_pos t8]
      simp only [childLive_fst, expectLive_fst, ih]
    rw [if_neg t8, if_neg t8]
    by_cases t9 : name = "mul".toList
    · rw [if_pos t9, if_pos t9]
      simp only [childLive_fst, expectLive_fst, ih]
    rw [if_neg t9, if_neg t9]
    by_cases t10 : name = "divmod".toList
    · rw [if_pos t10, if_pos t10]
      simp only [childLive_fst, expectLive_fst, ih]
    rw [if_neg t10, if_neg t10]
    by_cases t11 : name = "let".toList
    · rw [if_pos t11, if_pos t11]
      simp only [childLive_fst, expectLive_fst, ih]
    rw [if_neg t11, if_neg t11]
    by_cases t12 : name = "ifgreater".toList
    · rw [if_pos t12, if_pos t12]
      simp only [childLive_fst, expectLive_fst, ih]
    rw [if_neg t12, if_neg t12]
    by_cases t13 : name = "fun".toList
    · rw [if_pos t13, if_pos t13]
      simp only [childLive_fst, expectLive_fst, ih]
    rw [if_neg t13, if_neg t13]
    by_cases t14 : name = "call".toList
    · rw [if_pos t14, if_pos t14]
      simp only [childLive_fst, expectLive_fst, ih]
    rw [if_neg t14, if_neg t14]

/-- Claim C21: the code at texts on which the recursive descent fails.  The
bookkeeping of allocations does not change what the cursor form returns.  On
`<fst,<a,>`, `<snd,<a,>`, `<isvoid,<a,>` and `<neg,<a,>` the operand fails to
parse and the production returns `nullptr` with its own node still allocated:
one node is left; the entry point then throws.  On `<pair,<a,>` the production
deletes its node and nothing is left.  On `<pair,<def,x,<void>>` the parsed
`Def` is deleted without its child, because `Def::destroy` is empty: one node
is left. -/
theorem parse_failure_leaks :
    (∀ fuel p pos, (parseAtLive fuel p pos).1 = parseAt fuel p pos) ∧
      parseAtLive 2 "<fst,<a,>".toList 0 = (.null, 1) ∧
      parseAtLive 2 "<snd,<a,>".toList 0 = (.null, 1) ∧
      parseAtLive 2 "<isvoid,<a,>".toList 0 = (.null, 1) ∧
      parseAtLive 2 "<neg,<a,>".toList 0 = (.null, 1) ∧
      parse 2 "<fst,<a,>".toList = .logic_error "bad formed expression" ∧
      parseAtLive 2 "<pair,<a,>".toList 0 = (.null, 0) ∧
      parseAtLive 3 "<pair,<def,x,<void>>".toList 0 = (.null, 1) :=
  ⟨parseAtLive_fst, by decide, by decide, by decide, by decide, by decide, by decide,
    by decide⟩

/-! ## Scopes, and termination without `Call` -/

theorem depth_le_nodes : ∀ (e : Exp), depth e ≤ nodes e
  | .Void => by simp [depth, nodes]
  | .Int _ => by simp [depth, nodes]
  | .Var _ => by simp [depth, nodes]
  | .Closure _ _ => by simp only [depth, nodes]; omega
  | .IsVoid e => by have := depth_le_nodes e; simp only [depth, nodes]; omega
  | .Fst e => by have := depth_le_nodes e; simp only [depth, nodes]; omega
  | .Snd e => by have := depth_le_nodes e; simp only [depth, nodes]; omega
  | .Neg e => by have := depth_le_nodes e; simp only [depth, nodes]; omega
  | .Def _ e => by have := depth_le_nodes e; simp only [depth, nodes]; omega
  | .Fun _ _ e => by have := depth_le_nodes e; simp only [depth, nodes]; omega
  | .Call _ e => by have := depth_le_nodes e; simp only [depth, nodes]; omega
  | .Pair e1 e2 => by
    have := depth_le_nodes e1; have := depth_le_nodes e2; simp only [depth, nodes]; omega
  | .Add e1 e2 => by
    have := depth_le_nodes e1; have := depth_le_nodes e2; simp only [depth, nodes]; omega
  | .Mul e1 e2 => by
    have := depth_le_nodes e1; have := depth_le_nodes e2; simp only [depth, nodes]; omega
  | .DivMod e1 e2 => by
    have := depth_le_nodes e1; have := depth_le_nodes e2; simp only [depth, nodes]; omega
  | .Let _ e1 e2 => by
    have := depth_le_nodes e1; have := depth_le_nodes e2; simp only [depth, nodes]; omega
  | .IfGreater e1 e2 e3 e4 => by
    have := depth_le_nodes e1; have := depth_le_nodes e2
    have := depth_le_nodes e3; have := depth_le_nodes e4
    simp only [depth, nodes]; omega

theorem thenSteps_le (r : Outcome × Enviroment) (k : Exp → Enviroment → Nat) (b : Nat)
    (h : ∀ v env, k v env ≤ b) : thenSteps r k ≤ b := by
  obtain ⟨o, env⟩ := r
  cases o with
  | value v => exact h v env
  | domain_error w => exact Nat.zero_le _
  | undefined => exact Nat.zero_le _
  | out_of_fuel => exact Nat.zero_le _

theorem steps_le_nodes : ∀ (fuel : Nat) (e : Exp) (env : Enviroment), callFree e →
    steps fuel e env ≤ nodes e := by
  intro fuel
  induction fuel with
  | zero => intro e env _; simp [steps]
  | succ n ih =>
    intro e env he
    cases e with
    | Void => simp [steps, nodes]
    | Int c => simp [steps, nodes]
    | Var x => simp [steps, nodes]
    | Closure cenv fn => simp only [steps, nodes]; omega
    | Fun name formal body => simp only [steps, nodes]; omega
    | Call fname actual => simp [callFree] at he
    | IsVoid e =>
      simp only [callFree] at he
      have := ih e env he
      simp only [steps, nodes]; omega
    | Fst e =>
      simp only [callFree] at he
      have := ih e env he
      simp only [steps, nodes]; omega
    | Snd e =>
      simp only [callFree] at he
      have := ih e env he
      simp only [steps, nodes]; omega
    | Neg e =>
      simp only [callFree] at he
      have := ih e env he
      simp only [steps, nodes]; omega
    | Def x e =>
      simp only [callFree] at he
      have := ih e env he
      simp only [steps, nodes]; omega
    | Pair e1 e2 =>
      simp only [callFree] at he
      have h1 := ih e1 env he.1
      have h2 := thenSteps_le (eval n e1 env) (fun _ env => steps n e2 env) (nodes e2)
        (fun _ env1 => ih e2 env1 he.2)
      simp only [steps, nodes]; omega
    | Add e1 e2 =>
      simp only [callFree] at he
      have h1 := ih e1 env he.1
      have h2 := thenSteps_le (eval n e1 env) (fun _ env => steps n e2 env) (nodes e2)
        (fun _ env1 => ih e2 env1 he.2)
      simp only [steps, nodes]; omega
    | Mul e1 e2 =>
      simp only [callFree] at he
      have h1 := ih e1 env he.1
      have h2 := thenSteps_le (eval n e1 env) (fun _ env => steps n e2 env) (nodes e2)
        (fun _ env1 => ih e2 env1 he.2)
      simp only [steps, nodes]; omega
    | DivMod e1 e2 =>
      simp only [callFree] at he
      have h1 := ih e1 env he.1
      have h2 := thenSteps_le (eval n e1 env) (fun _ env => steps n e2 env) (nodes e2)
        (fun _ env1 => ih e2 env1 he.2)
      simp only [steps, nodes]; omega
    | Let x e body =>
      simp only [callFree] at he
      have h1 := ih e env he.1
      have h2 := thenSteps_le (eval n e env)
        (fun v env => steps n body (env.insert x v)) (nodes body)
        (fun v env1 => ih body _ he.2)
      simp only [steps, nodes]; omega
    | IfGreater e1 e2 e3 e4 =>
      simp only [callFree] at he
      have h1 := ih e1 env he.1
      have h2 := thenSteps_le (eval n e1 env)
        (fun ee1 env =>
          steps n e2 env + thenSteps (eval n e2 env) fun ee2 env =>
            match ee1, ee2 with
            | .Int a, .Int b => if a.val > b.val then steps n e3 env else steps n e4 env
            | _, _ => 0)
        (nodes e2 + (nodes e3 + nodes e4))
        (fun ee1 env1 => by
          have h3 := ih e2 env1 he.2.1
          have h4 := thenSteps_le (eval n e2 env1)
            (fun ee2 env =>
              match ee1, ee2 with
              | .Int a, .Int b => if a.val > b.val then steps n e3 env else steps n e4 env
              | _, _ => 0)
            (nodes e3 + nodes e4)
            (fun ee2 env2 => by
              have h5 := ih e3 env2 he.2.2.1
              have h6 := ih e4 env2 he.2.2.2
              dsimp only
              split
              · split <;> omega
              · omega)
          dsimp only
          omega)
      simp only [steps, nodes]; omega

theorem andThen_outcome (a : Prop) (r : Outcome × Enviroment)
    (k : Exp → Enviroment → Outcome × Enviroment)
    (hr : r.1 ≠ .out_of_fuel ∧ (a → r.1 ≠ .undefined))
    (hk : ∀ v env, (k v env).1 ≠ .out_of_fuel ∧ (a → (k v env).1 ≠ .undefined)) :
    (andThen r k).1 ≠ .out_of_fuel ∧ (a → (andThen r k).1 ≠ .undefined) := by
  obtain ⟨o, env⟩ := r
  cases o with
  | value v => exact hk v env
  | domain_error w => exact ⟨by simp [andThen], fun _ => by simp [andThen]⟩
  | undefined => exact ⟨by simp [andThen], fun ha => absurd rfl (hr.2 ha)⟩
  | out_of_fuel => exact absurd rfl hr.1

theorem intResult_ne_out_of_fuel (z : Int) : intResult z ≠ .out_of_fuel := by
  unfold intResult
  split <;> simp

theorem divmodResult_ne_out_of_fuel (a b : CInt) : divmodResult a b ≠ .out_of_fuel := by
  unfold divmodResult
  split
  · simp
  · split <;> simp

theorem eval_callFree : ∀ (fuel : Nat) (e : Exp) (env : Enviroment), callFree e →
    depth e ≤ fuel →
    (eval fuel e env).1 ≠ .out_of_fuel ∧ (arithFree e → (eval fuel e env).1 ≠ .undefined) := by
  intro fuel
  induction fuel with
  | zero => intro e env _ hd; cases e <;> simp [depth] at hd
  | succ n ih =>
    intro e env he hd
    cases e with
    | Void => rw [eval]; simp
    | Int c => rw [eval]; simp
    | Closure cenv fn => rw [eval]; simp
    | Fun name formal body => rw [eval]; simp
    | Call fname actual => simp [callFree] at he
    | Var x =>
      rw [eval]
      split <;> simp
    | IsVoid e =>
      simp only [callFree] at he
      simp only [depth] at hd
      rw [eval]
      refine andThen_outcome _ _ _ ?_ fun v env1 => ?_
      · have := ih e env he (by omega)
        exact ⟨this.1, fun ha => this.2 (by simpa only [arithFree] using ha)⟩
      · split <;> simp
    | Fst e =>
      simp only [callFree] at he
      simp only [depth] at hd
      rw [eval]
      refine andThen_outcome _ _ _ ?_ fun v env1 => ?_
      · have := ih e env he (by omega)
        exact ⟨this.1, fun ha => this.2 (by simpa only [arithFree] using ha)⟩
      · split <;> simp
    | Snd e =>
      simp only [callFree] at he
      simp only [depth] at hd
      rw [eval]
      refine andThen_outcome _ _ _ ?_ fun v env1 => ?_
      · have := ih e env he (by omega)
        exact ⟨this.1, fun ha => this.2 (by simpa only [arithFree] using ha)⟩
      · split <;> simp
    | Def x e =>
      simp only [callFree] at he
      simp only [depth] at hd
      rw [eval]
      refine andThen_outcome _ _ _ ?_ fun v env1 => ?_
      · have := ih e env he (by omega)
        exact ⟨this.1, fun ha => this.2 (by simpa only [arithFree] using ha)⟩
      · simp
    | Neg e =>
      simp only [callFree] at he
      simp only [depth] at hd
      rw [eval]
      refine andThen_outcome _ _ _ ?_ fun v env1 => ?_
      · exact ⟨(ih e env he (by omega)).1, fun ha => by simp [arithFree] at ha⟩
      · refine ⟨?_, fun ha => by simp [arithFree] at ha⟩
        split
        · exact intResult_ne_out_of_fuel _
        · simp
    | Pair e1 e2 =>
      simp only [callFree] at he
      simp only [depth] at hd
      rw [eval]
      refine andThen_outcome _ _ _ ?_ fun v env1 => andThen_outcome _ _ _ ?_ fun w env2 => ?_
      · have := ih e1 env he.1 (by omega)
        exact ⟨this.1, fun ha => this.2 (by simp only [arithFree] at ha; exact ha.1)⟩
      · have := ih e2 env1 he.2 (by omega)
        exact ⟨this.1, fun ha => this.2 (by simp only [arithFree] at ha; exact ha.2)⟩
      · simp
    | Add e1 e2 =>
      simp only [callFree] at he
      simp only [depth] at hd
      rw [eval]
      refine andThen_outcome _ _ _ ?_ fun v env1 => andThen_outcome _ _ _ ?_ fun w env2 => ?_
      · exact ⟨(ih e1 env he.1 (by omega)).1, fun ha => by simp [arithFree] at ha⟩
      · exact ⟨(ih e2 env1 he.2 (by omega)).1, fun ha => by simp [arithFree] at ha⟩
      · refine ⟨?_, fun ha => by simp [arithFree] at ha⟩
        split
        · exact intResult_ne_out_of_fuel _
        · simp
    | Mul e1 e2 =>
      simp only [callFree] at he
      simp only [depth] at hd
      rw [eval]
      refine andThen_outcome _ _ _ ?_ fun v env1 => andThen_outcome _ _ _ ?_ fun w env2 => ?_
      · exact ⟨(ih e1 env he.1 (by omega)).1, fun ha => by simp [arithFree] at ha⟩
      · exact ⟨(ih e2 env1 he.2 (by omega)).1, fun ha => by simp [arithFree] at ha⟩
      · refine ⟨?_, fun ha => by simp [arithFree] at ha⟩
        split
        · exact intResult_ne_out_of_fuel _
        · simp
    | DivMod e1 e2 =>
      simp only [callFree] at he
      simp only [depth] at hd
      rw [eval]
      refine andThen_outcome _ _ _ ?_ fun v env1 => andThen_outcome _ _ _ ?_ fun w env2 => ?_
      · exact ⟨(ih e1 env he.1 (by omega)).1, fun ha => by simp [arithFree] at ha⟩
      · exact ⟨(ih e2 env1 he.2 (by omega)).1, fun ha => by simp [arithFree] at ha⟩
      · refine ⟨?_, fun ha => by simp [arithFree] at ha⟩
        split
        · exact divmodResult_ne_out_of_fuel _ _
        · simp
    | Let x e body =>
      simp only [callFree] at he
      simp only [depth] at hd
      rw [eval]
      refine andThen_outcome _ _ _ ?_ fun v env1 => ?_
      · have := ih e env he.1 (by omega)
        exact ⟨this.1, fun ha => this.2 (by simp only [arithFree] at ha; exact ha.1)⟩
      · have := ih body (env1.insert x v) he.2 (by omega)
        exact ⟨this.1, fun ha => this.2 (by simp only [arithFree] at ha; exact ha.2)⟩
    | IfGreater e1 e2 e3 e4 =>
      simp only [callFree] at he
      simp only [depth] at hd
      rw [eval]
      refine andThen_outcome _ _ _ ?_ fun v env1 => andThen_outcome _ _ _ ?_ fun w env2 => ?_
      · have := ih e1 env he.1 (by omega)
        exact ⟨this.1, fun ha => this.2 (by simp only [arithFree] at ha; exact ha.1)⟩
      · have := ih e2 env1 he.2.1 (by omega)
        exact ⟨this.1, fun ha => this.2 (by simp only [arithFree] at ha; exact ha.2.1)⟩
      · split
        · split
          · have := ih e3 env2 he.2.2.1 (by omega)
            exact ⟨this.1, fun ha => this.2 (by simp only [arithFree] at ha; exact ha.2.2.1)⟩
          · have := ih e4 env2 he.2.2.2 (by omega)
            exact ⟨this.1, fun ha => this.2 (by simp only [arithFree] at ha; exact ha.2.2.2)⟩
        · simp

theorem forever_body (fuel : Nat) (v : Exp) :
    (eval fuel (.Call ['f'] (.Var ['x']))
      (.cons ['x'] v (.cons ['f'] (.Closure .nil forever) .nil))).1 = .out_of_fuel := by
  induction fuel with
  | zero => rfl
  | succ n ih =>
    have hl : envlookup (.cons ['x'] v (.cons ['f'] (.Closure .nil forever) .nil)) ['f']
        = some (.Closure .nil (.Fun ['f'] ['x'] (.Call ['f'] (.Var ['x'])))) := by
      simp [envlookup, forever]
    rw [eval]
    simp only [hl]
    cases n with
    | zero => rfl
    | succ m =>
      rw [eval_Var]
      simp only [envlookup, if_true, andThen_value, Enviroment.insert]
      exact ih

theorem forever_call (fuel : Nat) :
    (eval fuel (.Call ['f'] .Void) (.cons ['f'] (.Closure .nil forever) .nil)).1
      = .out_of_fuel := by
  cases fuel with
  | zero => rfl
  | succ n =>
    have hl : envlookup (.cons ['f'] (.Closure .nil forever) .nil) ['f']
        = some (.Closure .nil (.Fun ['f'] ['x'] (.Call ['f'] (.Var ['x'])))) := by
      simp [envlookup, forever]
    rw [eval]
    simp only [hl]
    cases n with
    | zero => rfl
    | succ m =>
      rw [eval]
      simp only [andThen_value, Enviroment.insert]
      exact forever_body (m + 1) .Void

/-- Claim C22 (bindings made inside a scope do not escape it).  After
`eval(Let(name, bound, body), env)` the caller holds the environment that
evaluating `bound` alone in `env` leaves; and whenever
`eval(Call(f, arg), env)` returns a tree, the caller holds the environment that
evaluating `arg` alone in `env` leaves.  So the binding of `name`, the formal
parameter, the self-binding of the function and whatever the body binds with
`Def` or `Fun` are not in the environment of the caller afterwards. -/
theorem scope_bindings (n : Nat) (name : List Char) (bound body : Exp) (f : List Char)
    (arg : Exp) (env : Enviroment) :
    (eval (n + 1) (.Let name bound body) env).2 = (eval n bound env).2 ∧
      (∀ v env', eval (n + 1) (.Call f arg) env = (.value v, env') →
        env' = (eval n arg env).2) := by
  constructor
  · rw [eval]
    exact andThen_snd_of_snd _ _ fun v env1 => rfl
  · intro v env' h
    rw [eval] at h
    split at h
    · cases h
    · obtain ⟨v1, env1, h1, h2⟩ := andThen_eq_value h
      rw [h1]
      simp only [Prod.mk.injEq] at h2
      exact h2.2.symm
    · cases h
    · cases h

/-- A witness of `scope_bindings`: a call whose body defines a name; the
caller's environment afterwards binds neither that name nor the parameter. -/
theorem scope_bindings_witness :
    Enviroment.cons ['g'] (.Closure .nil (.Fun ['h'] ['x'] (.Def ['y'] (.Var ['x'])))) .nil
      = (eval 2 (.Int CInt.one)
          (.cons ['g'] (.Closure .nil (.Fun ['h'] ['x'] (.Def ['y'] (.Var ['x'])))) .nil)).2 :=
  (scope_bindings 2 ['z'] .Void .Void ['g'] (.Int CInt.one)
    (.cons ['g'] (.Closure .nil (.Fun ['h'] ['x'] (.Def ['y'] (.Var ['x'])))) .nil)).2
    .Void _ rfl

/-- Claim C23, as stated, fails: `DivMod(Int(1), Int(0))` has no `Call` node,
and its evaluation ends neither with a value nor with an error but in the
undefined behaviour of a division by zero. -/
theorem callFree_counterexample :
    callFree (.DivMod (.Int CInt.one) (.Int CInt.zero)) ∧
      eval 2 (.DivMod (.Int CInt.one) (.Int CInt.zero)) .nil = (.undefined, .nil) ∧
      (∀ v, (eval 2 (.DivMod (.Int CInt.one) (.Int CInt.zero)) .nil).1 ≠ .value v) ∧
      (∀ w, (eval 2 (.DivMod (.Int CInt.one) (.Int CInt.zero)) .nil).1 ≠ .domain_error w) := by
  have h : eval 2 (.DivMod (.Int CInt.one) (.Int CInt.zero)) .nil = (.undefined, .nil) := by
    decide
  refine ⟨by simp [callFree], h, fun v => ?_, fun w => ?_⟩
  · rw [h]; simp
  · rw [h]; simp

/-- Claim C23, amended.  For every tree with no `Call` node where `eval`
reaches it, every environment and every fuel that covers the nesting depth of
the tree (its size is enough): the evaluation does not run out of fuel, it
makes at most as many calls of `eval` as the tree has nodes, and it ends with a
value or an error when the tree does no machine arithmetic (the undefined
behaviour of an overflow or of a zero divisor is the one other way it
ends).  A `Call` can make the evaluation diverge: the call of a function that
calls itself runs out of every fuel. -/
theorem callFree_terminates (e : Exp) (env : Enviroment) (fuel : Nat) :
    (callFree e → depth e ≤ fuel →
      (eval fuel e env).1 ≠ .out_of_fuel ∧
      (arithFree e →
        (∃ v, (eval fuel e env).1 = .value v) ∨
        (∃ w, (eval fuel e env).1 = .domain_error w))) ∧
      (callFree e → steps fuel e env ≤ nodes e) ∧
      depth e ≤ nodes e ∧
      (eval fuel (.Call ['f'] .Void) (.cons ['f'] (.Closure .nil forever) .nil)).1
        = .out_of_fuel := by
  refine ⟨fun hc hd => ?_, fun hc => steps_le_nodes fuel e env hc, depth_le_nodes e,
    forever_call fuel⟩
  obtain ⟨h1, h2⟩ := eval_callFree fuel e env hc hd
  refine ⟨h1, fun ha => ?_⟩
  have h3 := h2 ha
  cases ho : (eval fuel e env).1 with
  | value v => exact Or.inl ⟨v, rfl⟩
  | domain_error w => exact Or.inr ⟨w, rfl⟩
  | undefined => exact absurd ho h3
  | out_of_fuel => exact absurd ho h1

/-- A witness of `callFree_terminates`: a `Let` whose body defines a function
and compares two integers. -/
theorem callFree_terminates_witness :
    (eval 5 (.Let ['x'] (.Int CInt.one)
        (.IfGreater (.Var ['x']) (.Int CInt.zero) (.Fun ['f'] ['y'] (.Call ['f'] (.Var ['y'])))
          (.Var ['u']))) .nil).1 ≠ .out_of_fuel ∧
      steps 5 (.Let ['x'] (.Int CInt.one)
        (.IfGreater (.Var ['x']) (.Int CInt.zero) (.Fun ['f'] ['y'] (.Call ['f'] (.Var ['y'])))
          (.Var ['u']))) .nil
        ≤ nodes (.Let ['x'] (.Int CInt.one)
          (.IfGreater (.Var ['x']) (.Int CInt.zero)
            (.Fun ['f'] ['y'] (.Call ['f'] (.Var ['y']))) (.Var ['u']))) :=
  ⟨((callFree_terminates _ .nil 5).1 (by simp [callFree]) (by decide)).1,
    (callFree_terminates _ .nil 5).2.1 (by simp [callFree])⟩
